import Mathlib

/-!
# Verification of the hexatic-phase analysis pipeline

Shallow embedding of the C sources (`clusters.c`, `utils.c`, `com.c`,
`delaunay.c`, `psi6.c`, `g6accum.c`, `graccum.c`) of the
Hexatic-Phase-Analysis repository, together with proofs of the spec claims.

Machine `double` arithmetic is idealized as exact arithmetic: rational
numbers `ℚ` wherever the code only uses field operations, comparisons,
`round`, `fmod` and `floor`, and real numbers `ℝ` where the code calls
transcendental functions (`atan2`, `cos`, `sin`, `M_PI`).  The call
`floor(sqrt(r2)/dr)` is embedded as the computable `binOf` on squared
distances; the lemma `binOf_eq_floor_sqrt` shows it agrees with the
real-valued expression the C code computes.
-/

namespace Hexatic

/-! ## utils.c : Vec2, minimum image, wrapping -/

/-- A 2D coordinate (`Vec2` in `utils.h`), with `double` idealized as `ℚ`. -/
structure Vec2 where
  x : ℚ
  y : ℚ
deriving DecidableEq, Repr

instance : Inhabited Vec2 := ⟨⟨0, 0⟩⟩

/-- C99 `round`: round half away from zero. -/
def cround (q : ℚ) : ℤ := if 0 ≤ q then ⌊q + 1 / 2⌋ else ⌈q - 1 / 2⌉

/-- C99 truncation toward zero, as used by `fmod`. -/
def ctrunc (q : ℚ) : ℤ := if 0 ≤ q then ⌊q⌋ else ⌈q⌉

/-- C99 `fmod x L = x - trunc(x/L) * L`. -/
def cfmod (x L : ℚ) : ℚ := x - L * (ctrunc (x / L) : ℚ)

/-- `mic_delta` from `utils.c`: minimum-image fold of a displacement. -/
def mic_delta (d L : ℚ) : ℚ := if L ≤ 0 then d else d - L * (cround (d / L) : ℚ)

/-- `wrap_pos` from `utils.c`: wrap a coordinate into `[0, L)`. -/
def wrap_pos (x L : ℚ) : ℚ :=
  if L ≤ 0 then x
  else
    let y := cfmod x L
    if y < 0 then y + L else y

/-- The displacement from `p` to `q`, minimum-image folded when `use_pbc`.
This is the common `dx = q.x - p.x; dy = q.y - p.y; if (use_pbc) mic_delta`
pattern of `clusters.c`, `com.c`, `g6accum.c`, `graccum.c` and `psi6.c`. -/
def pairDelta (use_pbc : Bool) (bx by_ : ℚ) (p q : Vec2) : ℚ × ℚ :=
  if use_pbc then (mic_delta (q.x - p.x) bx, mic_delta (q.y - p.y) by_)
  else (q.x - p.x, q.y - p.y)

/-- Squared pair distance as computed by the pair loops (`dx*dx + dy*dy`). -/
def dist2 (use_pbc : Bool) (bx by_ : ℚ) (p q : Vec2) : ℚ :=
  let d := pairDelta use_pbc bx by_ p q
  d.1 * d.1 + d.2 * d.2

/-- Indexing `pos->data[i]` (always in range in the C code). -/
def getV (l : List Vec2) (i : ℕ) : Vec2 := l.getD i ⟨0, 0⟩

/-- `⌊√r2 / dr⌋` on squared distances: the bin index `(int)floor(r / dr)`
with `r = sqrt(r2)`, made computable over `ℚ`. -/
def binOf (r2 dr : ℚ) : ℕ := Nat.sqrt (⌊r2 / dr ^ 2⌋).toNat

/-! ## clusters.c : union-find -/

/-- The union-find arena (`UF` in `clusters.c`); the `parent` and `rank`
arrays are embedded as functions on `ℕ` that are the identity / zero outside
`[0, n)`. -/
structure UF where
  parent : ℕ → ℕ
  rank : ℕ → ℕ
  n : ℕ

/-- `uf_init`: every index its own parent, all ranks zero. -/
def uf_init (n : ℕ) : UF := ⟨fun i => i, fun _ => 0, n⟩

/-- The first `while` loop of `uf_root`: follow parent pointers to the root.
The C loop is unbounded; fuel `n` suffices (see `findRootAux_finds`). -/
def findRootAux (p : ℕ → ℕ) : ℕ → ℕ → ℕ
  | 0, r => r
  | fuel + 1, r => if p r = r then r else findRootAux p fuel (p r)

/-- The second `while` loop of `uf_root`: path compression, rewriting every
node on the path from `i` to point directly at the root `r`. -/
def compressPath (r : ℕ) : (ℕ → ℕ) → ℕ → ℕ → (ℕ → ℕ)
  | p, 0, _ => p
  | p, fuel + 1, i => if i = r then p else compressPath r (Function.update p i r) fuel (p i)

/-- `uf_root`: returns the root and the path-compressed state. -/
def uf_root (uf : UF) (i : ℕ) : ℕ × UF :=
  let r := findRootAux uf.parent uf.n i
  (r, { uf with parent := compressPath r uf.parent uf.n i })

/-- `uf_union`: union by rank of the classes of `a` and `b`. -/
def uf_union (uf : UF) (a b : ℕ) : UF :=
  let res1 := uf_root uf a
  let ra := res1.1
  let uf1 := res1.2
  let res2 := uf_root uf1 b
  let rb := res2.1
  let uf2 := res2.2
  if ra = rb then uf2
  else if uf2.rank ra < uf2.rank rb then
    { uf2 with parent := Function.update uf2.parent ra rb }
  else if uf2.rank rb < uf2.rank ra then
    { uf2 with parent := Function.update uf2.parent rb ra }
  else
    { uf2 with parent := Function.update uf2.parent rb ra,
               rank := Function.update uf2.rank ra (uf2.rank ra + 1) }

/-- The pair iteration order of the `O(N^2)` loops:
`(i, j)` for `i = 0..N-1`, `j = i+1..N-1`. -/
def allPairs (N : ℕ) : List (ℕ × ℕ) :=
  (List.range N).flatMap fun i => ((List.range N).filter fun j => i < j).map fun j => (i, j)

/-- The body of the pair scan: union a pair iff its (squared, possibly
minimum-image) distance is `≤ lbond²`. -/
def clusterStep (ps : List Vec2) (lbond : ℚ) (use_pbc : Bool) (bx by_ : ℚ)
    (uf : UF) (ij : ℕ × ℕ) : UF :=
  if dist2 use_pbc bx by_ (getV ps ij.1) (getV ps ij.2) ≤ lbond * lbond then
    uf_union uf ij.1 ij.2
  else uf

/-- The pair scan of `find_clusters_from_vec2array`. -/
def clusterUF (ps : List Vec2) (lbond : ℚ) (use_pbc : Bool) (bx by_ : ℚ) : UF :=
  (allPairs ps.length).foldl (clusterStep ps lbond use_pbc bx by_) (uf_init ps.length)

/-- One step of the root pass: look up (and compress) the root of `i`,
appending it to the output list. -/
def rootStep (acc : List ℕ × UF) (i : ℕ) : List ℕ × UF :=
  let r := uf_root acc.2 i
  (acc.1 ++ [r.1], r.2)

/-- The root pass `for(i..N) root[i] = uf_root(&uf, i)`, threading the
path-compressed state. -/
def rootPass (uf : UF) (N : ℕ) : List ℕ × UF :=
  (List.range N).foldl rootStep ([], uf)

/-- The `map` pass: scan the root list, assigning compact ids on first sight
of each distinct root (`map[r] = -1` is embedded as `none`). -/
def buildMap : List ℕ → (ℕ → Option ℕ) → ℕ → ((ℕ → Option ℕ) × ℕ)
  | [], m, c => (m, c)
  | r :: rs, m, c =>
    match m r with
    | some _ => buildMap rs m c
    | none => buildMap rs (Function.update m r (some c)) (c + 1)

/-- Outcome of `find_clusters_from_vec2array`: whether a diagnostic was
printed to stderr, the returned id array (`none` = `NULL`), and the value
stored through `out_nclusters` (`none` = never written). -/
structure ClustersResult where
  reported : Bool
  ids : Option (List ℕ)
  nclustersOut : Option ℕ
deriving DecidableEq, Repr

/-- `find_clusters_from_vec2array` from `clusters.c`.  A `NULL` point set is
`none`. -/
def find_clusters_from_vec2array (pos : Option (List Vec2)) (lbond : ℚ)
    (use_pbc : Bool) (bx by_ : ℚ) : ClustersResult :=
  match pos with
  | none => ⟨true, none, none⟩
  | some ps =>
    if ps.length = 0 then ⟨false, none, some 0⟩
    else if use_pbc = true ∧ (bx ≤ 0 ∨ by_ ≤ 0) then ⟨true, none, some 0⟩
    else
      let uf := clusterUF ps lbond use_pbc bx by_
      let rp := rootPass uf ps.length
      let mc := buildMap rp.1 (fun _ => none) 0
      ⟨false, some (rp.1.map fun r => (mc.1 r).getD 0), some mc.2⟩

/-! ## com.c : cluster centers of mass -/

/-- The body of the per-cluster loop of `compute_cluster_coms`: reference the
first member, sum (minimum-image folded) displacements of all valid members,
divide by the full member count `nm`, add back, re-wrap under periodicity.
An empty cluster or an invalid reference index yields the origin. -/
def comOfCluster (pos : List Vec2) (cl : List ℕ) (use_pbc : Bool) (bx by_ : ℚ) : Vec2 :=
  match cl with
  | [] => ⟨0, 0⟩
  | idx0 :: _ =>
    if idx0 < pos.length then
      let p0 := getV pos idx0
      let s := cl.foldl
        (fun s idx =>
          if idx < pos.length then
            let d := pairDelta use_pbc bx by_ p0 (getV pos idx)
            (s.1 + d.1, s.2 + d.2)
          else s)
        ((0 : ℚ), (0 : ℚ))
      let cx := p0.x + s.1 / (cl.length : ℚ)
      let cy := p0.y + s.2 / (cl.length : ℚ)
      if use_pbc then ⟨wrap_pos cx bx, wrap_pos cy by_⟩ else ⟨cx, cy⟩
    else ⟨0, 0⟩

/-- `compute_cluster_coms` from `com.c` (`none` = the error return for an
invalid periodic box). -/
def compute_cluster_coms (pos : List Vec2) (clusters : List (List ℕ))
    (use_pbc : Bool) (bx by_ : ℚ) : Option (List Vec2) :=
  if use_pbc = true ∧ (bx ≤ 0 ∨ by_ ≤ 0) then none
  else some (clusters.map fun cl => comOfCluster pos cl use_pbc bx by_)

/-! ## delaunay.c : periodic neighbor graph from triangulator edges

The planar triangulator (the Triangle library) is an external black box; its
edge list is taken as an input here.  The tiled input array `in.pointlist`
and the edge post-processing loop are embedded from the source. -/

/-- The 8 image shifts, in source order. -/
def shifts : List (ℤ × ℤ) := [(-1, -1), (-1, 0), (-1, 1), (0, -1), (0, 1), (1, -1), (1, 0), (1, 1)]

/-- The point array handed to the triangulator: the originals followed by the
8 shifted copies when periodic (`in.pointlist`). -/
def tiledPoints (ps : List Vec2) (use_pbc : Bool) (bx by_ : ℚ) : List Vec2 :=
  if use_pbc then
    ps ++ shifts.flatMap fun s => ps.map fun p => ⟨p.x + (s.1 : ℚ) * bx, p.y + (s.2 : ℚ) * by_⟩
  else ps

/-- The edge-acceptance tolerance `eps = 1e-9`. -/
def edgeEps : ℚ := 1 / 1000000000

/-- The `continue` chain of the edge loop in `triangulate_get_neighbors`:
`true` iff edge `e` survives to the neighbor-insertion step. -/
def edgeKept (ps : List Vec2) (use_pbc : Bool) (bx by_ : ℚ) (e : ℕ × ℕ) : Bool :=
  let M := ps.length
  if use_pbc = true ∧ ¬ e.1 < M ∧ ¬ e.2 < M then false
  else
    let o1 := e.1 % M
    let o2 := e.2 % M
    if o1 = o2 then false
    else if use_pbc then
      let tp := tiledPoints ps true bx by_
      let ex := (getV tp e.2).x - (getV tp e.1).x
      let ey := (getV tp e.2).y - (getV tp e.1).y
      let mx := mic_delta ((getV ps o2).x - (getV ps o1).x) bx
      let my := mic_delta ((getV ps o2).y - (getV ps o1).y) by_
      decide (¬ (edgeEps < |ex - mx| ∨ edgeEps < |ey - my|))
    else true

/-- Append `v` to `neighbors[i]` unless already present (the
`neighbor_has` / `ia_push` pattern). -/
def addNeighbor (nbrs : List (List ℕ)) (i v : ℕ) : List (List ℕ) :=
  let l := nbrs.getD i []
  if v ∈ l then nbrs else nbrs.set i (l ++ [v])

/-- The edge loop: filter each edge, map endpoints modulo `M`, insert both
directions deduplicated. -/
def processEdges (ps : List Vec2) (use_pbc : Bool) (bx by_ : ℚ)
    (edges : List (ℕ × ℕ)) : List (List ℕ) :=
  edges.foldl
    (fun nbrs e =>
      if edgeKept ps use_pbc bx by_ e then
        addNeighbor (addNeighbor nbrs (e.1 % ps.length) (e.2 % ps.length))
          (e.2 % ps.length) (e.1 % ps.length)
      else nbrs)
    (List.replicate ps.length [])

/-- `triangulate_get_neighbors` from `delaunay.c`, with the triangulator's
edge list as explicit input (`none` = the `NULL` failure returns). -/
def triangulate_get_neighbors (ps : List Vec2) (use_pbc : Bool) (bx by_ : ℚ)
    (edges : List (ℕ × ℕ)) : Option (List (List ℕ)) :=
  if ps.length = 0 then none
  else if use_pbc = true ∧ (bx ≤ 0 ∨ by_ ≤ 0) then none
  else if edges.length = 0 then none
  else some (processEdges ps use_pbc bx by_ edges)

/-! ## psi6.c : hexatic order parameter -/

/-- `atan2(dy, dx)` as the argument of the complex number `dx + dy·i`. -/
noncomputable def bondAngle (dx dy : ℚ) : ℝ := Complex.arg ⟨(dx : ℝ), (dy : ℝ)⟩

/-- The per-COM body of `compute_psi6_from_neighbors`: average of
`(cos 6θ, sin 6θ)` over the valid neighbors, divided by the full neighbor
count; zero neighbors yield `0`. -/
noncomputable def psi6At (coms : List Vec2) (i : ℕ) (nbrsI : List ℕ)
    (use_pbc : Bool) (bx by_ : ℚ) : ℂ :=
  if nbrsI.length = 0 then 0
  else
    let s := nbrsI.foldl
      (fun s j =>
        if j < coms.length then
          let d := pairDelta use_pbc bx by_ (getV coms i) (getV coms j)
          let theta := bondAngle d.1 d.2
          (s.1 + Real.cos (6 * theta), s.2 + Real.sin (6 * theta))
        else s)
      ((0 : ℝ), (0 : ℝ))
    ⟨s.1 / (nbrsI.length : ℝ), s.2 / (nbrsI.length : ℝ)⟩

/-- `compute_psi6_from_neighbors` from `psi6.c`. -/
noncomputable def compute_psi6_from_neighbors (coms : List Vec2)
    (neighbors : List (List ℕ)) (use_pbc : Bool) (bx by_ : ℚ) : Option (List ℂ) :=
  if coms.length = 0 then none
  else some ((List.range coms.length).map fun i =>
    psi6At coms i (neighbors.getD i []) use_pbc bx by_)

/-! ## g6accum.c : hexatic correlation accumulator -/

/-- The `Complex` struct of `g6accum.h` (a pair of doubles). -/
structure CComplex where
  re : ℚ
  im : ℚ
deriving DecidableEq, Repr

/-- A `G6Bin`. -/
structure G6Bin where
  r_center : ℚ
  re_sum : ℚ
  im_sum : ℚ
  pair_count : ℕ
  sample_count : ℕ
deriving DecidableEq, Repr

/-- A `G6Accum`. -/
structure G6Accum where
  bins : List G6Bin
  dr : ℚ
deriving DecidableEq, Repr

/-- `g6accum_create` (`none` on `dr ≤ 0`). -/
def g6accum_create (dr : ℚ) : Option G6Accum :=
  if dr ≤ 0 then none else some ⟨[], dr⟩

/-- A fresh bin with center `(b + 0.5)·dr`. -/
def g6_newBin (dr : ℚ) (b : ℕ) : G6Bin := ⟨((b : ℚ) + 1 / 2) * dr, 0, 0, 0, 0⟩

/-- `g6accum_ensure_bins`: grow the bin array up to index `bmax`. -/
def g6accum_ensure_bins (A : G6Accum) (bmax : ℕ) : G6Accum :=
  if bmax < A.bins.length then A
  else { A with bins := A.bins ++ ((List.range (bmax + 1 - A.bins.length)).map
      fun t => g6_newBin A.dr (A.bins.length + t)) }

/-- Indexing `psi6[i]`. -/
def getC (l : List CComplex) (i : ℕ) : CComplex := l.getD i ⟨0, 0⟩

/-- The second pair loop of `g6accum_accumulate`: the per-snapshot arrays
`snap_re`, `snap_im`, `snap_cnt` as one function of the bin index.  `mv2` is
`max_valid_r²`; a pair beyond it is skipped when periodic.  Each kept pair
adds `Re/Im` of `psi6(i)·conj(psi6(j))` to its bin. -/
def g6SnapSums (coms : List Vec2) (psi : List CComplex) (use_pbc : Bool)
    (bx by_ : ℚ) (dr : ℚ) (nbins : ℕ) (mv2 : ℚ) : ℕ → ℚ × ℚ × ℕ :=
  (allPairs coms.length).foldl
    (fun s ij =>
      let r2 := dist2 use_pbc bx by_ (getV coms ij.1) (getV coms ij.2)
      if use_pbc = true ∧ mv2 < r2 then s
      else
        let b := binOf r2 dr
        if b < nbins then
          let a := getC psi ij.1
          let c := getC psi ij.2
          Function.update s b
            ((s b).1 + (a.re * c.re + a.im * c.im),
             (s b).2.1 + (a.im * c.re - a.re * c.im),
             (s b).2.2 + 1)
        else s)
    (fun _ => (0, 0, 0))

/-- The first pair loop of `g6accum_accumulate`: the squared running maximum
distance over kept pairs (`rmax` is tracked via `sqrt`, compared squared). -/
def g6Rmax2 (coms : List Vec2) (use_pbc : Bool) (bx by_ : ℚ) (mv2 : ℚ) : ℚ :=
  (allPairs coms.length).foldl
    (fun rmax2 ij =>
      let r2 := dist2 use_pbc bx by_ (getV coms ij.1) (getV coms ij.2)
      if use_pbc = true ∧ mv2 < r2 then rmax2
      else if rmax2 < r2 then r2 else rmax2)
    0

/-- `g6accum_accumulate` from `g6accum.c`: grow bins to the snapshot's
maximum kept distance, form the per-snapshot bin means, and add one mean
per non-empty bin to the running sums. -/
def g6accum_accumulate (A : G6Accum) (coms : List Vec2) (psi : List CComplex)
    (use_pbc : Bool) (bx by_ : ℚ) : G6Accum :=
  if coms.length < 2 then A
  else if use_pbc = true ∧ min bx by_ / 2 ≤ 0 then A
  else
    let mv2 := (min bx by_ / 2) ^ 2
    let A1 := g6accum_ensure_bins A (binOf (g6Rmax2 coms use_pbc bx by_ mv2) A.dr)
    let snap := g6SnapSums coms psi use_pbc bx by_ A.dr A1.bins.length mv2
    { A1 with bins := (List.range A1.bins.length).map fun b =>
        let bin := A1.bins.getD b (g6_newBin A.dr 0)
        if 0 < (snap b).2.2 then
          { bin with re_sum := bin.re_sum + (snap b).1 / ((snap b).2.2 : ℚ),
                     im_sum := bin.im_sum + (snap b).2.1 / ((snap b).2.2 : ℚ),
                     pair_count := bin.pair_count + (snap b).2.2,
                     sample_count := bin.sample_count + 1 }
        else bin }

/-- The per-bin value emitted by `g6accum_write`: skip bins without samples,
else divide the running sums by the snapshot count (`Re`, `Im`). -/
def g6_value (A : G6Accum) (b : ℕ) : Option (ℚ × ℚ) :=
  match A.bins[b]? with
  | none => none
  | some bin =>
    if bin.sample_count = 0 then none
    else some (bin.re_sum / (bin.sample_count : ℚ), bin.im_sum / (bin.sample_count : ℚ))

/-! ## graccum.c : pair correlation accumulator -/

/-- A `GrBin`; the shell-area and ideal-pair sums involve `π` and live in `ℝ`. -/
structure GrBin where
  r_center : ℚ
  shell_area_sum : ℝ
  ideal_pairs_sum : ℝ
  pair_count : ℕ

/-- A `GrAccum`. -/
structure GrAccum where
  bins : List GrBin
  dr : ℚ
  nframes : ℕ

/-- `graccum_create` (`none` on `dr ≤ 0`). -/
def graccum_create (dr : ℚ) : Option GrAccum :=
  if dr ≤ 0 then none else some ⟨[], dr, 0⟩

/-- `shell_area`: thin-shell area `π(rout² − rin²)`. -/
noncomputable def shell_area (rin rout : ℝ) : ℝ := Real.pi * (rout * rout - rin * rin)

/-- A fresh g(r) bin with center `(b + 0.5)·dr`. -/
def gr_newBin (dr : ℚ) (b : ℕ) : GrBin := ⟨((b : ℚ) + 1 / 2) * dr, 0, 0, 0⟩

/-- `ensure_bins` for `GrAccum`. -/
def gr_ensure_bins (A : GrAccum) (bmax : ℕ) : GrAccum :=
  if bmax < A.bins.length then A
  else { A with bins := A.bins ++ ((List.range (bmax + 1 - A.bins.length)).map
      fun t => gr_newBin A.dr (A.bins.length + t)) }

/-- The first pair loop of `graccum_accumulate`: squared maximum pair
distance (no cutoff here). -/
def grRmax2 (coms : List Vec2) (use_pbc : Bool) (bx by_ : ℚ) : ℚ :=
  (allPairs coms.length).foldl
    (fun rmax2 ij =>
      let r2 := dist2 use_pbc bx by_ (getV coms ij.1) (getV coms ij.2)
      if rmax2 < r2 then r2 else rmax2)
    0

/-- The second pair loop of `graccum_accumulate`: raw pair counts per bin. -/
def grPairCounts (coms : List Vec2) (use_pbc : Bool) (bx by_ : ℚ)
    (dr : ℚ) (nbins : ℕ) : ℕ → ℕ :=
  (allPairs coms.length).foldl
    (fun cnt ij =>
      let b := binOf (dist2 use_pbc bx by_ (getV coms ij.1) (getV coms ij.2)) dr
      if b < nbins then Function.update cnt b (cnt b + 1) else cnt)
    (fun _ => 0)

/-- `graccum_accumulate` from `graccum.c`: bin raw pair counts, and add the
shell area and (when a positive density exists) the ideal-gas expected pair
count to every bin.  The two per-bin update loops of the source touch
disjoint fields and are merged into one pass. -/
noncomputable def graccum_accumulate (A : GrAccum) (coms : List Vec2)
    (use_pbc : Bool) (bx by_ : ℚ) : GrAccum :=
  if coms.length < 2 then A
  else if use_pbc = true ∧ (bx ≤ 0 ∨ by_ ≤ 0) then A
  else
    let A1 := gr_ensure_bins A (binOf (grRmax2 coms use_pbc bx by_) A.dr)
    let cnt := grPairCounts coms use_pbc bx by_ A.dr A1.bins.length
    let area : ℝ := if use_pbc then (bx : ℝ) * (by_ : ℝ) else 0
    let rho : ℝ := if 0 < area then (coms.length : ℝ) / area else 0
    { bins := (List.range A1.bins.length).map fun b =>
        let bin := A1.bins.getD b (gr_newBin A.dr 0)
        let da := shell_area ((b : ℝ) * (A.dr : ℝ)) (((b : ℝ) + 1) * (A.dr : ℝ))
        { bin with
          shell_area_sum := bin.shell_area_sum + da,
          ideal_pairs_sum :=
            if 0 < rho then bin.ideal_pairs_sum + 1 / 2 * (coms.length : ℝ) * rho * da
            else bin.ideal_pairs_sum,
          pair_count := bin.pair_count + cnt b },
      dr := A1.dr,
      nframes := A1.nframes + 1 }

/-- `gr_value` from `graccum.c`: `pair_count / ideal_pairs_sum`, or `0` when
no ideal pairs were accumulated. -/
noncomputable def gr_value (bin : GrBin) : ℝ :=
  if bin.ideal_pairs_sum ≤ 0 then 0 else (bin.pair_count : ℝ) / bin.ideal_pairs_sum

/-- A zeroed bin (never actually read in range). -/
def grDefaultBin : GrBin := ⟨0, 0, 0, 0⟩

/-- One iteration of the peak-scan loop of `graccum_estimate_first_peak_a`:
state = (first local peak, global peak index, global peak value). -/
noncomputable def peakStep (bins : List GrBin) (st : Option ℕ × Option ℕ × ℝ) (b : ℕ) :
    Option ℕ × Option ℕ × ℝ :=
  let gm := gr_value (bins.getD (b - 1) grDefaultBin)
  let g0 := gr_value (bins.getD b grDefaultBin)
  let gp := gr_value (bins.getD (b + 1) grDefaultBin)
  let glob := if st.2.2 < g0 then ((some b : Option ℕ), g0) else (st.2.1, st.2.2)
  let fl := if st.1 = none ∧ gm < g0 ∧ gp ≤ g0 ∧ 1 < g0 then (some b : Option ℕ) else st.1
  (fl, glob.1, glob.2)

/-- The scan over the interior bins `b = 1 .. nbins-2`. -/
noncomputable def peakScan (bins : List GrBin) : Option ℕ × Option ℕ × ℝ :=
  (List.range' 1 (bins.length - 2)).foldl (peakStep bins) (none, none, -1)

/-- `graccum_estimate_first_peak_a` from `graccum.c`. -/
noncomputable def graccum_estimate_first_peak_a (A : GrAccum) : ℚ :=
  if A.bins.length < 3 then -1
  else
    let st := peakScan A.bins
    match st.1 with
    | some b => (A.bins.getD b grDefaultBin).r_center
    | none =>
      match st.2.1 with
      | some b => (A.bins.getD b grDefaultBin).r_center
      | none => -1

/-- The per-bin `g_r` column emitted by `graccum_write`. -/
noncomputable def gr_write_value (bin : GrBin) : ℝ :=
  if 0 < bin.ideal_pairs_sum then (bin.pair_count : ℝ) / bin.ideal_pairs_sum else 0

/-! ## Generic helper lemmas -/

theorem getD_map_range {α : Type} {n b : ℕ} (f : ℕ → α) (d : α) (h : b < n) :
    ((List.range n).map f).getD b d = f b := by
  rw [List.getD_eq_getElem?_getD, List.getElem?_map, List.getElem?_range h]
  rfl

theorem getD_append_left {α : Type} {l1 l2 : List α} {i : ℕ} (d : α) (h : i < l1.length) :
    (l1 ++ l2).getD i d = l1.getD i d := by
  rw [List.getD_eq_getElem?_getD, List.getElem?_append, if_pos h, List.getD_eq_getElem?_getD]

theorem getD_append_right {α : Type} {l1 l2 : List α} {i : ℕ} (d : α) (h : ¬ i < l1.length) :
    (l1 ++ l2).getD i d = l2.getD (i - l1.length) d := by
  rw [List.getD_eq_getElem?_getD, List.getElem?_append, if_neg h, List.getD_eq_getElem?_getD]

theorem getD_mem {α : Type} {l : List α} {i : ℕ} (d : α) (h : i < l.length) :
    l.getD i d ∈ l := by
  rw [List.getD_eq_getElem?_getD, List.getElem?_eq_getElem h]
  exact List.getElem_mem ..

theorem getD_map_getD {α β : Type} (f : α → β) (l : List α) {i : ℕ} (h : i < l.length)
    (d : α) (d2 : β) : (l.map f).getD i d2 = f (l.getD i d) := by
  rw [List.getD_eq_getElem?_getD, List.getElem?_map, List.getD_eq_getElem?_getD,
    List.getElem?_eq_getElem h]
  rfl

theorem cround_zero : cround 0 = 0 := by
  norm_num [cround]

theorem mic_delta_zero (L : ℚ) : mic_delta 0 L = 0 := by
  unfold mic_delta
  rw [zero_div, cround_zero]
  simp

/-! ## Claim C7 : single-member cluster COM -/

/-- A displacement from a point to itself folds to zero. -/
theorem pairDelta_self (pbc : Bool) (bx by_ : ℚ) (p : Vec2) :
    pairDelta pbc bx by_ p p = (0, 0) := by
  cases pbc <;> simp [pairDelta, mic_delta_zero]

/-- The COM of a single-member cluster with a valid index: the displacement
sum is `mic_delta 0 = 0`, so the COM is the member's coordinate, wrapped
into the primary cell when periodic. -/
theorem comOfCluster_single (pos : List Vec2) (pbc : Bool) (bx by_ : ℚ) (i : ℕ)
    (hi : i < pos.length) :
    comOfCluster pos [i] pbc bx by_ =
      if pbc = true then ⟨wrap_pos (getV pos i).x bx, wrap_pos (getV pos i).y by_⟩
      else getV pos i := by
  simp [comOfCluster, hi, pairDelta_self]

/-- Claim C7, counterexample: under periodicity, the single-member COM is
wrapped into the primary cell, so for a member outside the cell it is not
the member's coordinate. -/
theorem C7_counterexample :
    compute_cluster_coms [⟨-1/2, 0⟩] [[0]] true 1 1 = some [⟨1/2, 0⟩] ∧
    (⟨1/2, 0⟩ : Vec2) ≠ ⟨-1/2, 0⟩ := by
  constructor
  · norm_num [compute_cluster_coms, comOfCluster, getV, pairDelta, mic_delta, cround,
      wrap_pos, cfmod, ctrunc]
    have hc : ⌈(-(1 : ℚ) / 2)⌉ = 0 := by norm_num
    rw [show (-(1 : ℚ) / 2) = -(1/2) from by norm_num] at hc
    rw [hc]
    norm_num
  · intro h
    rw [Vec2.mk.injEq] at h
    have h1 := h.1
    norm_num at h1

/-- Claim C7 (amended): for a cluster whose member list is exactly one valid
index `i`, the COM equals `pos[i]` exactly when periodicity is disabled, and
equals `pos[i]` wrapped into the primary cell (per axis) when periodicity is
enabled — hence equals `pos[i]` exactly whenever `pos[i]` already lies in
the cell. -/
theorem C7_com_single_member (pos : List Vec2) (clusters : List (List ℕ))
    (pbc : Bool) (bx by_ : ℚ) (c i : ℕ)
    (hc : c < clusters.length) (hcl : clusters.getD c [] = [i]) (hi : i < pos.length)
    (hok : ¬ (pbc = true ∧ (bx ≤ 0 ∨ by_ ≤ 0))) :
    ∃ out, compute_cluster_coms pos clusters pbc bx by_ = some out ∧
      out.getD c ⟨0, 0⟩ =
        (if pbc = true then ⟨wrap_pos (getV pos i).x bx, wrap_pos (getV pos i).y by_⟩
         else getV pos i) ∧
      (pbc = false → out.getD c ⟨0, 0⟩ = getV pos i) := by
  refine ⟨clusters.map fun cl => comOfCluster pos cl pbc bx by_, ?_, ?_, ?_⟩
  · simp [compute_cluster_coms, hok]
  · have hmap : (clusters.map fun cl => comOfCluster pos cl pbc bx by_).getD c ⟨0, 0⟩ =
        comOfCluster pos (clusters.getD c []) pbc bx by_ := by
      rw [List.getD_eq_getElem?_getD, List.getElem?_map,
        List.getElem?_eq_getElem hc]
      simp [List.getD_eq_getElem?_getD, List.getElem?_eq_getElem hc]
    rw [hmap, hcl, comOfCluster_single pos pbc bx by_ i hi]
  · intro hpbc
    subst hpbc
    have hmap : (clusters.map fun cl => comOfCluster pos cl false bx by_).getD c ⟨0, 0⟩ =
        comOfCluster pos (clusters.getD c []) false bx by_ := by
      rw [List.getD_eq_getElem?_getD, List.getElem?_map,
        List.getElem?_eq_getElem hc]
      simp [List.getD_eq_getElem?_getD, List.getElem?_eq_getElem hc]
    rw [hmap, hcl, comOfCluster_single pos false bx by_ i hi]
    simp

/-- Claim C7 witness: the amended theorem applied to a concrete
single-member cluster, both periodic and not. -/
theorem C7_witness :
    (∃ out, compute_cluster_coms [⟨1/4, 1/4⟩] [[0]] true 1 1 = some out ∧
      out.getD 0 ⟨0, 0⟩ =
        (if true = true then
          ⟨wrap_pos (getV [⟨1/4, 1/4⟩] 0).x 1, wrap_pos (getV [⟨1/4, 1/4⟩] 0).y 1⟩
         else getV [⟨1/4, 1/4⟩] 0) ∧
      (true = false → out.getD 0 ⟨0, 0⟩ = getV [⟨1/4, 1/4⟩] 0)) := by
  exact C7_com_single_member [⟨1/4, 1/4⟩] [[0]] true 1 1 0 0 (by decide) (by decide)
    (by decide) (by norm_num)

/-! ## Claim C8 : error handling of find_clusters_from_vec2array -/

/-- Claim C8: a `NULL` point set and a non-positive periodic box are
reported and produce no clustering; an empty point set yields zero clusters
without a report, distinguishable from both error outcomes. -/
theorem C8_find_clusters_errors (lbond bx by_ bx2 by2 : ℚ) (pbc : Bool)
    (ps : List Vec2) (hne : ps ≠ []) (hbox : bx ≤ 0 ∨ by_ ≤ 0) :
    (find_clusters_from_vec2array none lbond pbc bx2 by2 =
      ⟨true, none, none⟩) ∧
    (find_clusters_from_vec2array (some ps) lbond true bx by_ =
      ⟨true, none, some 0⟩) ∧
    (find_clusters_from_vec2array (some []) lbond pbc bx2 by2 =
      ⟨false, none, some 0⟩) ∧
    (find_clusters_from_vec2array (some []) lbond pbc bx2 by2).reported ≠
      (find_clusters_from_vec2array none lbond pbc bx2 by2).reported ∧
    (find_clusters_from_vec2array (some []) lbond pbc bx2 by2).reported ≠
      (find_clusters_from_vec2array (some ps) lbond true bx by_).reported := by
  have hlen : ps.length ≠ 0 := fun h => hne (List.length_eq_zero.mp h)
  refine ⟨rfl, ?_, rfl, ?_, ?_⟩
  · simp [find_clusters_from_vec2array, hlen, hbox]
  · simp [find_clusters_from_vec2array]
  · simp [find_clusters_from_vec2array, hlen, hbox]

/-- Claim C8 witness: the error-handling theorem at a concrete point set and
box. -/
theorem C8_witness :
    (find_clusters_from_vec2array none 1 false 1 1 = ⟨true, none, none⟩) ∧
    (find_clusters_from_vec2array (some [⟨0, 0⟩]) 1 true 0 1 = ⟨true, none, some 0⟩) ∧
    (find_clusters_from_vec2array (some []) 1 false 1 1 = ⟨false, none, some 0⟩) ∧
    (find_clusters_from_vec2array (some []) 1 false 1 1).reported ≠
      (find_clusters_from_vec2array none 1 false 1 1).reported ∧
    (find_clusters_from_vec2array (some []) 1 false 1 1).reported ≠
      (find_clusters_from_vec2array (some [⟨0, 0⟩]) 1 true 0 1).reported := by
  exact C8_find_clusters_errors 1 0 1 1 1 false [⟨0, 0⟩] (by simp) (Or.inl le_rfl)

/-! ## Claim C9 : box lengths are ignored when periodicity is disabled -/

theorem pairDelta_false (bx1 by1 bx2 by2 : ℚ) (p q : Vec2) :
    pairDelta false bx1 by1 p q = pairDelta false bx2 by2 p q := rfl

theorem dist2_false (bx1 by1 bx2 by2 : ℚ) (p q : Vec2) :
    dist2 false bx1 by1 p q = dist2 false bx2 by2 p q := rfl

theorem clusterUF_false_box (ps : List Vec2) (lbond bx1 by1 bx2 by2 : ℚ) :
    clusterUF ps lbond false bx1 by1 = clusterUF ps lbond false bx2 by2 := by
  unfold clusterUF
  exact List.foldl_ext _ _ _ fun uf ij _ => by
    unfold clusterStep
    rw [dist2_false bx1 by1 bx2 by2]

theorem comOfCluster_false_box (pos : List Vec2) (cl : List ℕ) (bx1 by1 bx2 by2 : ℚ) :
    comOfCluster pos cl false bx1 by1 = comOfCluster pos cl false bx2 by2 := by
  cases cl with
  | nil => rfl
  | cons idx0 t =>
    simp only [comOfCluster, pairDelta, Bool.false_eq_true, if_false]

theorem g6Rmax2_false_box (coms : List Vec2) (bx1 by1 bx2 by2 mv1 mv2 : ℚ) :
    g6Rmax2 coms false bx1 by1 mv1 = g6Rmax2 coms false bx2 by2 mv2 := by
  unfold g6Rmax2
  refine List.foldl_ext _ _ _ fun rmax2 ij _ => ?_
  simp only [Bool.false_eq_true, false_and, if_false, dist2_false bx1 by1 bx2 by2]

theorem g6SnapSums_false_box (coms : List Vec2) (psi : List CComplex)
    (bx1 by1 bx2 by2 : ℚ) (dr : ℚ) (nbins : ℕ) (mv1 mv2 : ℚ) :
    g6SnapSums coms psi false bx1 by1 dr nbins mv1 =
      g6SnapSums coms psi false bx2 by2 dr nbins mv2 := by
  unfold g6SnapSums
  refine List.foldl_ext _ _ _ fun s ij _ => ?_
  simp only [Bool.false_eq_true, false_and, if_false, dist2_false bx1 by1 bx2 by2]

/-- Claim C9: with periodicity disabled, the box lengths have no effect on
clustering, on cluster COMs, or on the g6 accumulator state: raw Euclidean
displacements are used throughout. -/
theorem C9_box_irrelevant_when_not_periodic
    (pos : Option (List Vec2)) (lbond : ℚ) (bx1 by1 bx2 by2 : ℚ)
    (pos2 : List Vec2) (clusters : List (List ℕ))
    (A : G6Accum) (coms : List Vec2) (psi : List CComplex) :
    find_clusters_from_vec2array pos lbond false bx1 by1 =
      find_clusters_from_vec2array pos lbond false bx2 by2 ∧
    compute_cluster_coms pos2 clusters false bx1 by1 =
      compute_cluster_coms pos2 clusters false bx2 by2 ∧
    g6accum_accumulate A coms psi false bx1 by1 =
      g6accum_accumulate A coms psi false bx2 by2 := by
  refine ⟨?_, ?_, ?_⟩
  · cases pos with
    | none => rfl
    | some ps =>
      simp only [find_clusters_from_vec2array, clusterUF_false_box ps lbond bx1 by1 bx2 by2,
        Bool.false_eq_true, false_and, if_false]
  · simp only [compute_cluster_coms, Bool.false_eq_true, false_and, if_false]
    exact congrArg some
      (List.map_congr_left fun cl _ => comOfCluster_false_box pos2 cl bx1 by1 bx2 by2)
  · simp only [g6accum_accumulate, Bool.false_eq_true, false_and, if_false]
    rw [g6Rmax2_false_box coms bx1 by1 bx2 by2 ((min bx1 by1 / 2) ^ 2) ((min bx2 by2 / 2) ^ 2),
      g6SnapSums_false_box coms psi bx1 by1 bx2 by2]

/-! ## Claim C10 : g(r) without periodicity is identically zero -/

/-- A run of non-periodic `graccum_accumulate` calls. -/
noncomputable def grRunNonPbc (A0 : GrAccum) (snaps : List (List Vec2 × ℚ × ℚ)) : GrAccum :=
  snaps.foldl (fun A s => graccum_accumulate A s.1 false s.2.1 s.2.2) A0

theorem gr_ensure_bins_ideal (A : GrAccum) (bmax : ℕ)
    (h : ∀ bin ∈ A.bins, bin.ideal_pairs_sum = 0) :
    ∀ bin ∈ (gr_ensure_bins A bmax).bins, bin.ideal_pairs_sum = 0 := by
  intro bin hbin
  unfold gr_ensure_bins at hbin
  by_cases hc : bmax < A.bins.length
  · rw [if_pos hc] at hbin
    exact h bin hbin
  · rw [if_neg hc] at hbin
    simp only at hbin
    rcases List.mem_append.mp hbin with h1 | h2
    · exact h bin h1
    · rcases List.mem_map.mp h2 with ⟨t, _, rfl⟩
      rfl

theorem graccum_accumulate_nonpbc_ideal (A : GrAccum) (coms : List Vec2) (bx by_ : ℚ)
    (h : ∀ bin ∈ A.bins, bin.ideal_pairs_sum = 0) :
    ∀ bin ∈ (graccum_accumulate A coms false bx by_).bins, bin.ideal_pairs_sum = 0 := by
  intro bin hbin
  unfold graccum_accumulate at hbin
  by_cases hM : coms.length < 2
  · rw [if_pos hM] at hbin
    exact h bin hbin
  · rw [if_neg hM] at hbin
    simp only [Bool.false_eq_true, false_and, if_false, lt_irrefl, lt_self_iff_false] at hbin
    rcases List.mem_map.mp hbin with ⟨b, hb, rfl⟩
    simp only [lt_irrefl, if_neg, if_false]
    have hb' : b < (gr_ensure_bins A (binOf (grRmax2 coms false bx by_) A.dr)).bins.length :=
      List.mem_range.mp hb
    exact gr_ensure_bins_ideal A _ h _ (getD_mem _ hb')

theorem grRunNonPbc_ideal (snaps : List (List Vec2 × ℚ × ℚ)) :
    ∀ A0, (∀ bin ∈ A0.bins, bin.ideal_pairs_sum = 0) →
      ∀ bin ∈ (grRunNonPbc A0 snaps).bins, bin.ideal_pairs_sum = 0 := by
  induction snaps with
  | nil => intro A0 h; exact h
  | cons s t ih =>
    intro A0 h
    exact ih _ (graccum_accumulate_nonpbc_ideal A0 s.1 s.2.1 s.2.2 h)

theorem gr_value_of_ideal_zero (bin : GrBin) (h : bin.ideal_pairs_sum = 0) :
    gr_value bin = 0 := by
  unfold gr_value
  rw [h, if_pos le_rfl]

theorem gr_write_value_of_ideal_zero (bin : GrBin) (h : bin.ideal_pairs_sum = 0) :
    gr_write_value bin = 0 := by
  unfold gr_write_value
  rw [h, if_neg (lt_irrefl 0)]

theorem peakScan_foldl_fl (bins : List GrBin) (l : List ℕ)
    (h : ∀ b ∈ l, ¬ 1 < gr_value (bins.getD b grDefaultBin)) :
    ∀ st : Option ℕ × Option ℕ × ℝ, (l.foldl (peakStep bins) st).1 = st.1 := by
  induction l with
  | nil => intro st; rfl
  | cons b t ih =>
    intro st
    rw [List.foldl_cons, ih (fun b' hb' => h b' (List.mem_cons_of_mem _ hb'))]
    unfold peakStep
    simp only
    rw [if_neg]
    rintro ⟨-, -, -, h4⟩
    exact h b (List.mem_cons_self _ _) h4

/-- Claim C10: starting from a fresh accumulator, any sequence of
non-periodic `graccum_accumulate` calls leaves every bin's
`ideal_pairs_sum` at zero, so every `g_r` value written by `graccum_write`
is `0` and the first-local-peak scan of `graccum_estimate_first_peak_a`
never fires (its result is the fallback). -/
theorem C10_gr_nonpbc_zero (dr : ℚ) (A0 : GrAccum) (hA0 : graccum_create dr = some A0)
    (snaps : List (List Vec2 × ℚ × ℚ)) :
    (∀ bin ∈ (grRunNonPbc A0 snaps).bins, bin.ideal_pairs_sum = 0) ∧
    (∀ bin ∈ (grRunNonPbc A0 snaps).bins, gr_write_value bin = 0) ∧
    (peakScan (grRunNonPbc A0 snaps).bins).1 = none := by
  have h0 : ∀ bin ∈ A0.bins, bin.ideal_pairs_sum = 0 := by
    unfold graccum_create at hA0
    by_cases h : dr ≤ 0
    · rw [if_pos h] at hA0
      cases hA0
    · rw [if_neg h] at hA0
      cases hA0
      intro bin hbin
      cases hbin
  have hrun := grRunNonPbc_ideal snaps A0 h0
  refine ⟨hrun, fun bin hbin => gr_write_value_of_ideal_zero bin (hrun bin hbin), ?_⟩
  unfold peakScan
  apply peakScan_foldl_fl
  intro b _
  have hval : gr_value ((grRunNonPbc A0 snaps).bins.getD b grDefaultBin) = 0 := by
    by_cases hb : b < (grRunNonPbc A0 snaps).bins.length
    · exact gr_value_of_ideal_zero _ (hrun _ (getD_mem _ hb))
    · rw [List.getD_eq_getElem?_getD, List.getElem?_eq_none (le_of_not_lt hb)]
      exact gr_value_of_ideal_zero grDefaultBin rfl
  rw [hval]
  norm_num

/-- Claim C10 witness: a concrete two-snapshot non-periodic run. -/
theorem C10_witness :
    (∀ bin ∈ (grRunNonPbc ⟨[], 1, 0⟩ [([⟨0, 0⟩, ⟨3, 0⟩], 1, 1)]).bins,
      bin.ideal_pairs_sum = 0) ∧
    (∀ bin ∈ (grRunNonPbc ⟨[], 1, 0⟩ [([⟨0, 0⟩, ⟨3, 0⟩], 1, 1)]).bins,
      gr_write_value bin = 0) ∧
    (peakScan (grRunNonPbc ⟨[], 1, 0⟩ [([⟨0, 0⟩, ⟨3, 0⟩], 1, 1)]).bins).1 = none := by
  exact C10_gr_nonpbc_zero 1 ⟨[], 1, 0⟩ (by norm_num [graccum_create]) _

/-! ## Claim C5 : first-peak extraction -/

/-- The g(r) value at bin index `b` (out-of-range reads give `0`). -/
noncomputable abbrev grValueAt (bins : List GrBin) (b : ℕ) : ℝ :=
  gr_value (bins.getD b grDefaultBin)

/-- The condition under which the scan of `graccum_estimate_first_peak_a`
records a first local peak at `b`: strictly above the previous bin, at least
the next bin, above `1`. -/
abbrev PeakCond (bins : List GrBin) (b : ℕ) : Prop :=
  grValueAt bins (b - 1) < grValueAt bins b ∧
  grValueAt bins (b + 1) ≤ grValueAt bins b ∧
  1 < grValueAt bins b

theorem gr_value_nonneg (bin : GrBin) : 0 ≤ gr_value bin := by
  unfold gr_value
  by_cases h : bin.ideal_pairs_sum ≤ 0
  · rw [if_pos h]
  · rw [if_neg h]
    exact div_nonneg (Nat.cast_nonneg _) (le_of_lt (lt_of_not_le h))

theorem peakStep_eq (bins : List GrBin) (st : Option ℕ × Option ℕ × ℝ) (b : ℕ) :
    peakStep bins st b =
      ((if st.1 = none ∧ PeakCond bins b then some b else st.1),
       (if st.2.2 < grValueAt bins b then some b else st.2.1),
       (if st.2.2 < grValueAt bins b then grValueAt bins b else st.2.2)) := by
  simp only [peakStep]
  by_cases hg : st.2.2 < grValueAt bins b
  · simp only [if_pos hg]
  · simp only [if_neg hg]

/-- Characterization of the first-local-peak component of the scan. -/
theorem peak_fl_char (bins : List GrBin) (k : ℕ) :
    (((List.range' 1 k).foldl (peakStep bins) (none, none, -1)).1 = none ∧
      (∀ b, 1 ≤ b → b < 1 + k → ¬ PeakCond bins b)) ∨
    (∃ b, 1 ≤ b ∧ b < 1 + k ∧ PeakCond bins b ∧
      (∀ b', 1 ≤ b' → b' < b → ¬ PeakCond bins b') ∧
      ((List.range' 1 k).foldl (peakStep bins) (none, none, -1)).1 = some b) := by
  induction k with
  | zero =>
    left
    exact ⟨rfl, fun b h1 h2 => absurd (lt_of_le_of_lt h1 h2) (by omega)⟩
  | succ k ih =>
    have hsnoc : List.range' 1 (k + 1) = List.range' 1 k ++ [1 + k] := by
      rw [List.range'_concat]
      norm_num
    rw [hsnoc, List.foldl_append, List.foldl_cons, List.foldl_nil, peakStep_eq]
    rcases ih with ⟨hnone, hnope⟩ | ⟨b, hb1, hbk, hP, hmin, hsome⟩
    · rw [hnone]
      by_cases hPk : PeakCond bins (1 + k)
      · right
        refine ⟨1 + k, by omega, by omega, hPk, ?_, ?_⟩
        · intro b' h1 h2
          exact hnope b' h1 (by omega)
        · rw [if_pos ⟨rfl, hPk⟩]
      · left
        constructor
        · simp [hPk]
        · intro b h1 h2
          rcases Nat.lt_succ_iff_lt_or_eq.mp (by omega : b < (1 + k) + 1) with h | h
          · exact hnope b h1 h
          · rw [h]
            exact hPk
    · right
      refine ⟨b, hb1, by omega, hP, hmin, ?_⟩
      rw [hsome]
      simp

/-- Characterization of the global-peak component of the scan: the earliest
maximal interior bin. -/
theorem peak_glob_char (bins : List GrBin) (k : ℕ) (hk : 1 ≤ k) :
    ∃ b, 1 ≤ b ∧ b < 1 + k ∧
      ((List.range' 1 k).foldl (peakStep bins) (none, none, -1)).2.1 = some b ∧
      ((List.range' 1 k).foldl (peakStep bins) (none, none, -1)).2.2 = grValueAt bins b ∧
      (∀ b', 1 ≤ b' → b' < 1 + k → grValueAt bins b' ≤ grValueAt bins b) ∧
      (∀ b', 1 ≤ b' → b' < b → grValueAt bins b' < grValueAt bins b) := by
  induction k with
  | zero => omega
  | succ k ih =>
    have hsnoc : List.range' 1 (k + 1) = List.range' 1 k ++ [1 + k] := by
      rw [List.range'_concat]
      norm_num
    rw [hsnoc, List.foldl_append, List.foldl_cons, List.foldl_nil, peakStep_eq]
    by_cases hk0 : 1 ≤ k
    · rcases ih hk0 with ⟨b, hb1, hbk, hgp, hgv, hmax, hfirst⟩
      rw [hgp, hgv]
      by_cases hlt : grValueAt bins b < grValueAt bins (1 + k)
      · refine ⟨1 + k, by omega, by omega, by simp [hlt], by simp [hlt], ?_, ?_⟩
        · intro b' h1 h2
          rcases (by omega : b' < 1 + k ∨ b' = 1 + k) with h | h
          · exact le_of_lt (lt_of_le_of_lt (hmax b' h1 h) hlt)
          · rw [h]
        · intro b' h1 h2
          exact lt_of_le_of_lt (hmax b' h1 (by omega)) hlt
      · refine ⟨b, hb1, by omega, by simp [hlt], by simp [hlt], ?_, hfirst⟩
        intro b' h1 h2
        rcases (by omega : b' < 1 + k ∨ b' = 1 + k) with h | h
        · exact hmax b' h1 h
        · rw [h]
          exact le_of_not_lt hlt
    · have hk1 : k = 0 := by omega
      subst hk1
      simp only [List.range'_one, List.foldl_nil, List.foldl_cons]
      have hlt : (-1 : ℝ) < grValueAt bins 1 :=
        lt_of_lt_of_le (by norm_num) (gr_value_nonneg _)
      refine ⟨1, le_rfl, by omega, ?_, ?_, ?_, ?_⟩
      · simp [hlt]
      · simp [hlt]
      · intro b' h1 h2
        have : b' = 1 := by omega
        rw [this]
      · intro b' h1 h2
        omega

/-- Modelled from the claim wording: scan for the first interior bin whose
value strictly exceeds both neighbors and exceeds 1; if none, fall back to
the global maximum bin over all bins (earliest on ties); negative sentinel
below 3 bins. -/
noncomputable def firstStrictPeak (bins : List GrBin) : List ℕ → Option ℕ
  | [] => none
  | b :: rest =>
    if grValueAt bins (b - 1) < grValueAt bins b ∧
        grValueAt bins (b + 1) < grValueAt bins b ∧ 1 < grValueAt bins b then some b
    else firstStrictPeak bins rest

/-- Modelled from the claim wording: earliest global argmax over a list of
bin indices. -/
noncomputable def argmaxAll (bins : List GrBin) : (Option ℕ × ℝ) → List ℕ → Option ℕ × ℝ
  | st, [] => st
  | st, b :: rest =>
    argmaxAll bins (if st.2 < grValueAt bins b then (some b, grValueAt bins b) else st) rest

/-- Modelled from the claim wording of C5 (what the claim asserts the
function does). -/
noncomputable def claimFirstPeakA (A : GrAccum) : ℚ :=
  if A.bins.length < 3 then -1
  else
    match firstStrictPeak A.bins (List.range' 1 (A.bins.length - 2)) with
    | some b => (A.bins.getD b grDefaultBin).r_center
    | none =>
      match (argmaxAll A.bins (none, -1) (List.range A.bins.length)).1 with
      | some b => (A.bins.getD b grDefaultBin).r_center
      | none => -1

/-- A 5-bin accumulator with g values `[0, 2, 2, 5, 0]` (plateau at the
first peak). -/
noncomputable def grExA : GrAccum :=
  ⟨[⟨1/20, 0, 1, 0⟩, ⟨3/20, 0, 1, 2⟩, ⟨5/20, 0, 1, 2⟩, ⟨7/20, 0, 1, 5⟩, ⟨9/20, 0, 1, 0⟩],
   1/10, 1⟩

/-- A 3-bin accumulator with g values `[10, 0, 0]` (global maximum at the
boundary bin). -/
noncomputable def grExB : GrAccum :=
  ⟨[⟨1/20, 0, 1, 10⟩, ⟨3/20, 0, 1, 0⟩, ⟨5/20, 0, 1, 0⟩], 1/10, 1⟩

/-- Claim C5, counterexample: the code accepts a plateau to the right
(`g0 >= gp`, bins `[0,2,2,5,0]`) where the claim's strict local maximum
is later, and its fallback maximum scans interior bins only (bins
`[10,0,0]`), not all bins as the claim says. -/
theorem C5_counterexample :
    graccum_estimate_first_peak_a grExA = 3/20 ∧ claimFirstPeakA grExA = 7/20 ∧
    graccum_estimate_first_peak_a grExB = 3/20 ∧ claimFirstPeakA grExB = 1/20 ∧
    (3/20 : ℚ) ≠ 7/20 ∧ (3/20 : ℚ) ≠ 1/20 := by
  refine ⟨?_, ?_, ?_, ?_, by norm_num, by norm_num⟩
  · norm_num [graccum_estimate_first_peak_a, peakScan, peakStep, gr_value, grExA, grDefaultBin,
      List.range', List.getD]
    simp
  · norm_num [claimFirstPeakA, firstStrictPeak, argmaxAll, gr_value, grExA, grDefaultBin,
      List.range', List.getD]
  · norm_num [graccum_estimate_first_peak_a, peakScan, peakStep, gr_value, grExB, grDefaultBin,
      List.range', List.getD]
  · norm_num [claimFirstPeakA, firstStrictPeak, argmaxAll, gr_value, grExB, grDefaultBin,
      List.range, List.range', List.getD]

/-- Claim C5 (amended): `graccum_estimate_first_peak_a` returns the center
of the first interior bin (`1 ≤ b ≤ nbins-2`) whose value strictly exceeds
the previous bin's, is at least the next bin's, and exceeds 1.0; if no
interior bin qualifies it returns the center of the earliest interior bin
of maximal g(r) value (interior bins only, first occurrence on ties); a
negative sentinel if fewer than 3 bins exist. -/
theorem C5_estimate_first_peak_amended (A : GrAccum) :
    (A.bins.length < 3 → graccum_estimate_first_peak_a A = -1) ∧
    (3 ≤ A.bins.length →
      ((∃ b, 1 ≤ b ∧ b + 1 < A.bins.length ∧ PeakCond A.bins b) →
        ∃ b, 1 ≤ b ∧ b + 1 < A.bins.length ∧ PeakCond A.bins b ∧
          (∀ b', 1 ≤ b' → b' < b → ¬ PeakCond A.bins b') ∧
          graccum_estimate_first_peak_a A = (A.bins.getD b grDefaultBin).r_center) ∧
      ((∀ b, 1 ≤ b → b + 1 < A.bins.length → ¬ PeakCond A.bins b) →
        ∃ b, 1 ≤ b ∧ b + 1 < A.bins.length ∧
          (∀ b', 1 ≤ b' → b' + 1 < A.bins.length →
            grValueAt A.bins b' ≤ grValueAt A.bins b) ∧
          (∀ b', 1 ≤ b' → b' < b → grValueAt A.bins b' < grValueAt A.bins b) ∧
          graccum_estimate_first_peak_a A = (A.bins.getD b grDefaultBin).r_center)) := by
  constructor
  · intro h
    unfold graccum_estimate_first_peak_a
    rw [if_pos h]
  · intro h3
    have hlt : ¬ A.bins.length < 3 := by omega
    constructor
    · rintro ⟨b0, hb01, hb0len, hb0P⟩
      rcases peak_fl_char A.bins (A.bins.length - 2) with ⟨hnone, hnope⟩ |
        ⟨b, h1, h2, hP, hmin, hsome⟩
      · exact absurd hb0P (hnope b0 hb01 (by omega))
      · refine ⟨b, h1, by omega, hP, hmin, ?_⟩
        simp only [graccum_estimate_first_peak_a]
        rw [if_neg hlt]
        have hs : (peakScan A.bins).1 = some b := hsome
        rw [hs]
    · intro hno
      rcases peak_fl_char A.bins (A.bins.length - 2) with ⟨hnone, -⟩ |
        ⟨b, h1, h2, hP, -, -⟩
      · obtain ⟨b, hb1, hbk, hgp, hgv, hmax, hfirst⟩ :=
          peak_glob_char A.bins (A.bins.length - 2) (by omega)
        refine ⟨b, hb1, by omega, ?_, hfirst, ?_⟩
        · intro b' h1' h2'
          exact hmax b' h1' (by omega)
        · simp only [graccum_estimate_first_peak_a]
          rw [if_neg hlt]
          have hs1 : (peakScan A.bins).1 = none := hnone
          have hs2 : (peakScan A.bins).2.1 = some b := hgp
          rw [hs1, hs2]
      · exact absurd hP (hno b h1 (by omega))

/-- Claim C5 witness: the amended theorem at the concrete accumulator with
g values `[0, 2, 2, 5, 0]`, whose first qualifying bin is bin 1. -/
theorem C5_witness :
    ∃ b, 1 ≤ b ∧ b + 1 < grExA.bins.length ∧ PeakCond grExA.bins b ∧
      (∀ b', 1 ≤ b' → b' < b → ¬ PeakCond grExA.bins b') ∧
      graccum_estimate_first_peak_a grExA = (grExA.bins.getD b grDefaultBin).r_center := by
  have hex : ∃ b, 1 ≤ b ∧ b + 1 < grExA.bins.length ∧ PeakCond grExA.bins b := by
    refine ⟨1, le_rfl, by norm_num [grExA], ?_, ?_, ?_⟩ <;>
      norm_num [grValueAt, gr_value, grExA, grDefaultBin, List.getD]
  exact ((C5_estimate_first_peak_amended grExA).2 (by norm_num [grExA])).1 hex

/-! ## Claims C3 and C6 : the periodic neighbor graph -/

theorem getD_replicate_nil (M k : ℕ) :
    (List.replicate M ([] : List ℕ)).getD k [] = [] := by
  rw [List.getD_eq_getElem?_getD, List.getElem?_replicate]
  split <;> rfl

theorem getD_set_self {α : Type} (l : List α) (i : ℕ) (a d : α) (h : i < l.length) :
    (l.set i a).getD i d = a := by
  rw [List.getD_eq_getElem?_getD, List.getElem?_set]
  simp [h]

theorem getD_set_ne {α : Type} (l : List α) (i k : ℕ) (a d : α) (h : i ≠ k) :
    (l.set i a).getD k d = l.getD k d := by
  rw [List.getD_eq_getElem?_getD, List.getElem?_set, if_neg h, List.getD_eq_getElem?_getD]

theorem addNeighbor_length (nbrs : List (List ℕ)) (i v : ℕ) :
    (addNeighbor nbrs i v).length = nbrs.length := by
  simp only [addNeighbor]
  by_cases h : v ∈ nbrs.getD i []
  · rw [if_pos h]
  · rw [if_neg h, List.length_set]

theorem mem_addNeighbor (nbrs : List (List ℕ)) (i v x k : ℕ) (hi : i < nbrs.length) :
    x ∈ (addNeighbor nbrs i v).getD k [] ↔ x ∈ nbrs.getD k [] ∨ (k = i ∧ x = v) := by
  unfold addNeighbor
  by_cases hmem : v ∈ nbrs.getD i []
  · rw [if_pos hmem]
    constructor
    · exact Or.inl
    · rintro (h | ⟨rfl, rfl⟩)
      · exact h
      · exact hmem
  · rw [if_neg hmem]
    by_cases hk : k = i
    · subst hk
      rw [getD_set_self _ _ _ _ hi]
      simp [List.mem_append]
    · rw [getD_set_ne _ _ _ _ _ fun h => hk h.symm]
      simp [hk]

theorem nodup_addNeighbor (nbrs : List (List ℕ)) (i v : ℕ)
    (h : ∀ k, (nbrs.getD k []).Nodup) :
    ∀ k, ((addNeighbor nbrs i v).getD k []).Nodup := by
  intro k
  unfold addNeighbor
  by_cases hmem : v ∈ nbrs.getD i []
  · rw [if_pos hmem]
    exact h k
  · rw [if_neg hmem]
    by_cases hk : k = i
    · subst hk
      by_cases hi : k < nbrs.length
      · rw [getD_set_self _ _ _ _ hi, List.nodup_append]
        exact ⟨h k, List.nodup_singleton v,
          fun a ha hav => hmem ((List.mem_singleton.mp hav) ▸ ha)⟩
      · rw [List.getD_eq_getElem?_getD, List.getElem?_set]
        simp only [if_pos rfl, if_neg hi]
        exact List.Pairwise.nil
    · rw [getD_set_ne _ _ _ _ _ fun hh => hk hh.symm]
      exact h k

/-- The per-edge state and invariant of the neighbor-insertion fold. -/
def NbrsOK (M : ℕ) (nbrs : List (List ℕ)) : Prop :=
  nbrs.length = M ∧ (∀ k, (nbrs.getD k []).Nodup) ∧ ∀ k, k ∉ nbrs.getD k []

theorem addBoth_spec (M : ℕ) (nbrs : List (List ℕ)) (o1 o2 : ℕ)
    (hOK : NbrsOK M nbrs) (h1 : o1 < M) (h2 : o2 < M) (hne : o1 ≠ o2) :
    NbrsOK M (addNeighbor (addNeighbor nbrs o1 o2) o2 o1) ∧
    ∀ k x, x ∈ (addNeighbor (addNeighbor nbrs o1 o2) o2 o1).getD k [] ↔
      x ∈ nbrs.getD k [] ∨ (k = o1 ∧ x = o2) ∨ (k = o2 ∧ x = o1) := by
  obtain ⟨hlen, hnd, hself⟩ := hOK
  have h1' : o1 < nbrs.length := by omega
  have h2' : o2 < (addNeighbor nbrs o1 o2).length := by
    rw [addNeighbor_length]
    omega
  have hmem : ∀ k x, x ∈ (addNeighbor (addNeighbor nbrs o1 o2) o2 o1).getD k [] ↔
      x ∈ nbrs.getD k [] ∨ (k = o1 ∧ x = o2) ∨ (k = o2 ∧ x = o1) := by
    intro k x
    rw [mem_addNeighbor _ _ _ _ _ h2', mem_addNeighbor _ _ _ _ _ h1']
    tauto
  refine ⟨⟨?_, ?_, ?_⟩, hmem⟩
  · rw [addNeighbor_length, addNeighbor_length]
    exact hlen
  · exact nodup_addNeighbor _ _ _ (nodup_addNeighbor _ _ _ hnd)
  · intro k hk
    rcases (hmem k k).mp hk with h | ⟨rfl, rfl⟩ | ⟨rfl, rfl⟩
    · exact hself k h
    · exact hne rfl
    · exact hne rfl

theorem edgeKept_ne (ps : List Vec2) (pbc : Bool) (bx by_ : ℚ) (e : ℕ × ℕ)
    (h : edgeKept ps pbc bx by_ e = true) :
    e.1 % ps.length ≠ e.2 % ps.length := by
  unfold edgeKept at h
  by_cases h1 : pbc = true ∧ ¬ e.1 < ps.length ∧ ¬ e.2 < ps.length
  · rw [if_pos h1] at h
    cases h
  · rw [if_neg h1] at h
    by_cases h2 : e.1 % ps.length = e.2 % ps.length
    · rw [if_pos h2] at h
      cases h
    · exact h2

theorem processFold_spec (ps : List Vec2) (pbc : Bool) (bx by_ : ℚ)
    (hM : 0 < ps.length) (L : List (ℕ × ℕ)) :
    ∀ nbrs, NbrsOK ps.length nbrs →
      NbrsOK ps.length
        (L.foldl
          (fun nbrs e =>
            if edgeKept ps pbc bx by_ e then
              addNeighbor (addNeighbor nbrs (e.1 % ps.length) (e.2 % ps.length))
                (e.2 % ps.length) (e.1 % ps.length)
            else nbrs)
          nbrs) ∧
      ∀ k x, x ∈ (L.foldl
          (fun nbrs e =>
            if edgeKept ps pbc bx by_ e then
              addNeighbor (addNeighbor nbrs (e.1 % ps.length) (e.2 % ps.length))
                (e.2 % ps.length) (e.1 % ps.length)
            else nbrs)
          nbrs).getD k [] ↔
        x ∈ nbrs.getD k [] ∨ ∃ e ∈ L, edgeKept ps pbc bx by_ e = true ∧
          ((k = e.1 % ps.length ∧ x = e.2 % ps.length) ∨
           (k = e.2 % ps.length ∧ x = e.1 % ps.length)) := by
  induction L with
  | nil =>
    intro nbrs hOK
    refine ⟨hOK, fun k x => ?_⟩
    simp
  | cons e t ih =>
    intro nbrs hOK
    rw [List.foldl_cons]
    by_cases hkept : edgeKept ps pbc bx by_ e = true
    · rw [if_pos hkept]
      obtain ⟨hOK', hmem'⟩ := addBoth_spec ps.length nbrs (e.1 % ps.length) (e.2 % ps.length)
        hOK (Nat.mod_lt _ hM) (Nat.mod_lt _ hM) (edgeKept_ne ps pbc bx by_ e hkept)
      obtain ⟨hOK2, hmem2⟩ := ih _ hOK'
      refine ⟨hOK2, fun k x => ?_⟩
      rw [hmem2, hmem' k x]
      constructor
      · rintro ((h | h | h) | ⟨e', he', hk, hor⟩)
        · exact Or.inl h
        · exact Or.inr ⟨e, List.mem_cons_self _ _, hkept, Or.inl h⟩
        · exact Or.inr ⟨e, List.mem_cons_self _ _, hkept, Or.inr h⟩
        · exact Or.inr ⟨e', List.mem_cons_of_mem _ he', hk, hor⟩
      · rintro (h | ⟨e', he', hk, hor⟩)
        · exact Or.inl (Or.inl h)
        · rcases List.mem_cons.mp he' with rfl | he'
          · rcases hor with h | h
            · exact Or.inl (Or.inr (Or.inl h))
            · exact Or.inl (Or.inr (Or.inr h))
          · exact Or.inr ⟨e', he', hk, hor⟩
    · rw [if_neg hkept]
      obtain ⟨hOK2, hmem2⟩ := ih _ hOK
      refine ⟨hOK2, fun k x => ?_⟩
      rw [hmem2]
      constructor
      · rintro (h | ⟨e', he', hk, hor⟩)
        · exact Or.inl h
        · exact Or.inr ⟨e', List.mem_cons_of_mem _ he', hk, hor⟩
      · rintro (h | ⟨e', he', hk, hor⟩)
        · exact Or.inl h
        · rcases List.mem_cons.mp he' with rfl | he'
          · exact absurd hk hkept
          · exact Or.inr ⟨e', he', hk, hor⟩

theorem triangulate_some_inv (ps : List Vec2) (pbc : Bool) (bx by_ : ℚ)
    (edges : List (ℕ × ℕ)) (nbrs : List (List ℕ))
    (h : triangulate_get_neighbors ps pbc bx by_ edges = some nbrs) :
    0 < ps.length ∧ nbrs = processEdges ps pbc bx by_ edges := by
  unfold triangulate_get_neighbors at h
  by_cases h0 : ps.length = 0
  · rw [if_pos h0] at h
    cases h
  · rw [if_neg h0] at h
    by_cases h1 : pbc = true ∧ (bx ≤ 0 ∨ by_ ≤ 0)
    · rw [if_pos h1] at h
      cases h
    · rw [if_neg h1] at h
      by_cases h2 : edges.length = 0
      · rw [if_pos h2] at h
        cases h
      · rw [if_neg h2] at h
        exact ⟨Nat.pos_of_ne_zero h0, (Option.some_inj.mp h).symm⟩

theorem processEdges_mem (ps : List Vec2) (pbc : Bool) (bx by_ : ℚ)
    (edges : List (ℕ × ℕ)) (hM : 0 < ps.length) :
    ∀ k x, x ∈ (processEdges ps pbc bx by_ edges).getD k [] ↔
      ∃ e ∈ edges, edgeKept ps pbc bx by_ e = true ∧
        ((k = e.1 % ps.length ∧ x = e.2 % ps.length) ∨
         (k = e.2 % ps.length ∧ x = e.1 % ps.length)) := by
  intro k x
  have hOK0 : NbrsOK ps.length (List.replicate ps.length ([] : List ℕ)) := by
    refine ⟨List.length_replicate .., fun k => ?_, fun k => ?_⟩ <;>
      rw [getD_replicate_nil]
    · exact List.Pairwise.nil
    · exact List.not_mem_nil k
  have := (processFold_spec ps pbc bx by_ hM edges _ hOK0).2 k x
  unfold processEdges
  rw [this, getD_replicate_nil]
  simp

theorem processEdges_OK (ps : List Vec2) (pbc : Bool) (bx by_ : ℚ)
    (edges : List (ℕ × ℕ)) (hM : 0 < ps.length) :
    NbrsOK ps.length (processEdges ps pbc bx by_ edges) := by
  have hOK0 : NbrsOK ps.length (List.replicate ps.length ([] : List ℕ)) := by
    refine ⟨List.length_replicate .., fun k => ?_, fun k => ?_⟩ <;>
      rw [getD_replicate_nil]
    · exact List.Pairwise.nil
    · exact List.not_mem_nil k
  exact (processFold_spec ps pbc bx by_ hM edges _ hOK0).1

/-- Claim C6: the returned neighbor graph is symmetric, deduplicated, and
self-loop free. -/
theorem C6_neighbor_graph_invariants (ps : List Vec2) (pbc : Bool) (bx by_ : ℚ)
    (edges : List (ℕ × ℕ)) (nbrs : List (List ℕ))
    (h : triangulate_get_neighbors ps pbc bx by_ edges = some nbrs) :
    (∀ i j, j ∈ nbrs.getD i [] ↔ i ∈ nbrs.getD j []) ∧
    (∀ i, (nbrs.getD i []).Nodup) ∧
    (∀ i, i ∉ nbrs.getD i []) := by
  obtain ⟨hM, rfl⟩ := triangulate_some_inv ps pbc bx by_ edges nbrs h
  obtain ⟨-, hnd, hself⟩ := processEdges_OK ps pbc bx by_ edges hM
  refine ⟨fun i j => ?_, hnd, hself⟩
  rw [processEdges_mem ps pbc bx by_ edges hM, processEdges_mem ps pbc bx by_ edges hM]
  constructor
  · rintro ⟨e, he, hk, hor⟩
    exact ⟨e, he, hk, hor.symm.imp And.comm.mp And.comm.mp⟩
  · rintro ⟨e, he, hk, hor⟩
    exact ⟨e, he, hk, hor.symm.imp And.comm.mp And.comm.mp⟩

/-- Claim C6 witness: the invariants at a concrete 3-point, 4-edge input. -/
theorem C6_witness :
    (∀ i j, j ∈ (processEdges [⟨0, 0⟩, ⟨1, 0⟩, ⟨0, 1⟩] false 1 1
        [(0, 1), (1, 2), (0, 2), (0, 1)]).getD i [] ↔
      i ∈ (processEdges [⟨0, 0⟩, ⟨1, 0⟩, ⟨0, 1⟩] false 1 1
        [(0, 1), (1, 2), (0, 2), (0, 1)]).getD j []) ∧
    (∀ i, ((processEdges [⟨0, 0⟩, ⟨1, 0⟩, ⟨0, 1⟩] false 1 1
        [(0, 1), (1, 2), (0, 2), (0, 1)]).getD i []).Nodup) ∧
    (∀ i, i ∉ (processEdges [⟨0, 0⟩, ⟨1, 0⟩, ⟨0, 1⟩] false 1 1
        [(0, 1), (1, 2), (0, 2), (0, 1)]).getD i []) := by
  exact C6_neighbor_graph_invariants [⟨0, 0⟩, ⟨1, 0⟩, ⟨0, 1⟩] false 1 1
    [(0, 1), (1, 2), (0, 2), (0, 1)] _ rfl

theorem edgeKept_true_iff (ps : List Vec2) (bx by_ : ℚ) (e : ℕ × ℕ) :
    edgeKept ps true bx by_ e = true ↔
      (e.1 < ps.length ∨ e.2 < ps.length) ∧
      e.1 % ps.length ≠ e.2 % ps.length ∧
      |((getV (tiledPoints ps true bx by_) e.2).x - (getV (tiledPoints ps true bx by_) e.1).x) -
        mic_delta ((getV ps (e.2 % ps.length)).x - (getV ps (e.1 % ps.length)).x) bx| ≤
        edgeEps ∧
      |((getV (tiledPoints ps true bx by_) e.2).y - (getV (tiledPoints ps true bx by_) e.1).y) -
        mic_delta ((getV ps (e.2 % ps.length)).y - (getV ps (e.1 % ps.length)).y) by_| ≤
        edgeEps := by
  simp only [edgeKept]
  by_cases hc : ¬ e.1 < ps.length ∧ ¬ e.2 < ps.length
  · rw [if_pos ⟨trivial, hc⟩]
    simp only [Bool.false_eq_true, false_iff]
    rintro ⟨hor, -⟩
    rcases hor with h | h
    · exact hc.1 h
    · exact hc.2 h
  · rw [if_neg fun h => hc h.2]
    by_cases ho : e.1 % ps.length = e.2 % ps.length
    · rw [if_pos ho]
      simp only [Bool.false_eq_true, false_iff]
      rintro ⟨-, hne, -⟩
      exact hne ho
    · rw [if_neg ho, if_pos trivial]
      simp only [decide_eq_true_eq]
      constructor
      · intro h
        push_neg at h
        refine ⟨?_, ho, h.1, h.2⟩
        rcases not_and_or.mp hc with h1 | h1
        · exact Or.inl (not_not.mp h1)
        · exact Or.inr (not_not.mp h1)
      · rintro ⟨-, -, h3, h4⟩
        push_neg
        exact ⟨h3, h4⟩

/-- Claim C3: under periodicity, an edge of the tiled triangulation
contributes to the neighbor graph iff at least one endpoint is in the
central copy, the endpoints map to distinct originals modulo `M`, and the
displacement implied by the tiled coordinates agrees per component with the
minimum-image displacement of the originals within `1e-9`. -/
theorem C3_periodic_edge_filter (ps : List Vec2) (bx by_ : ℚ)
    (edges : List (ℕ × ℕ)) (nbrs : List (List ℕ))
    (_hrange : ∀ e ∈ edges, e.1 < 9 * ps.length ∧ e.2 < 9 * ps.length)
    (h : triangulate_get_neighbors ps true bx by_ edges = some nbrs) :
    ∀ i j, j ∈ nbrs.getD i [] ↔
      ∃ e ∈ edges,
        (e.1 < ps.length ∨ e.2 < ps.length) ∧
        e.1 % ps.length ≠ e.2 % ps.length ∧
        |((getV (tiledPoints ps true bx by_) e.2).x -
            (getV (tiledPoints ps true bx by_) e.1).x) -
          mic_delta ((getV ps (e.2 % ps.length)).x - (getV ps (e.1 % ps.length)).x) bx| ≤
          edgeEps ∧
        |((getV (tiledPoints ps true bx by_) e.2).y -
            (getV (tiledPoints ps true bx by_) e.1).y) -
          mic_delta ((getV ps (e.2 % ps.length)).y - (getV ps (e.1 % ps.length)).y) by_| ≤
          edgeEps ∧
        ((i = e.1 % ps.length ∧ j = e.2 % ps.length) ∨
         (i = e.2 % ps.length ∧ j = e.1 % ps.length)) := by
  obtain ⟨hM, rfl⟩ := triangulate_some_inv ps true bx by_ edges nbrs h
  intro i j
  rw [processEdges_mem ps true bx by_ edges hM]
  constructor
  · rintro ⟨e, he, hk, hor⟩
    obtain ⟨h1, h2, h3, h4⟩ := (edgeKept_true_iff ps bx by_ e).mp hk
    exact ⟨e, he, h1, h2, h3, h4, hor⟩
  · rintro ⟨e, he, h1, h2, h3, h4, hor⟩
    exact ⟨e, he, (edgeKept_true_iff ps bx by_ e).mpr ⟨h1, h2, h3, h4⟩, hor⟩

/-- Claim C3 witness: a two-point periodic box with a single wrapped edge
from the point `0` to the left image of point `1` (tiled index 5). -/
theorem C3_witness :
    (∀ e ∈ [((0 : ℕ), (5 : ℕ))], e.1 < 9 * 2 ∧ e.2 < 9 * 2) ∧
    triangulate_get_neighbors [⟨0, 0⟩, ⟨3, 0⟩] true 4 4 [(0, 5)] =
      some (processEdges [⟨0, 0⟩, ⟨3, 0⟩] true 4 4 [(0, 5)]) ∧
    ∀ i j, j ∈ (processEdges [⟨0, 0⟩, ⟨3, 0⟩] true 4 4 [(0, 5)]).getD i [] ↔
      ∃ e ∈ [((0 : ℕ), (5 : ℕ))],
        (e.1 < ([⟨0, 0⟩, ⟨3, 0⟩] : List Vec2).length ∨
          e.2 < ([⟨0, 0⟩, ⟨3, 0⟩] : List Vec2).length) ∧
        e.1 % ([⟨0, 0⟩, ⟨3, 0⟩] : List Vec2).length ≠
          e.2 % ([⟨0, 0⟩, ⟨3, 0⟩] : List Vec2).length ∧
        |((getV (tiledPoints [⟨0, 0⟩, ⟨3, 0⟩] true 4 4) e.2).x -
            (getV (tiledPoints [⟨0, 0⟩, ⟨3, 0⟩] true 4 4) e.1).x) -
          mic_delta ((getV [⟨0, 0⟩, ⟨3, 0⟩] (e.2 % ([⟨0, 0⟩, ⟨3, 0⟩] : List Vec2).length)).x -
            (getV [⟨0, 0⟩, ⟨3, 0⟩] (e.1 % ([⟨0, 0⟩, ⟨3, 0⟩] : List Vec2).length)).x) 4| ≤
          edgeEps ∧
        |((getV (tiledPoints [⟨0, 0⟩, ⟨3, 0⟩] true 4 4) e.2).y -
            (getV (tiledPoints [⟨0, 0⟩, ⟨3, 0⟩] true 4 4) e.1).y) -
          mic_delta ((getV [⟨0, 0⟩, ⟨3, 0⟩] (e.2 % ([⟨0, 0⟩, ⟨3, 0⟩] : List Vec2).length)).y -
            (getV [⟨0, 0⟩, ⟨3, 0⟩] (e.1 % ([⟨0, 0⟩, ⟨3, 0⟩] : List Vec2).length)).y) 4| ≤
          edgeEps ∧
        ((i = e.1 % ([⟨0, 0⟩, ⟨3, 0⟩] : List Vec2).length ∧
            j = e.2 % ([⟨0, 0⟩, ⟨3, 0⟩] : List Vec2).length) ∨
         (i = e.2 % ([⟨0, 0⟩, ⟨3, 0⟩] : List Vec2).length ∧
            j = e.1 % ([⟨0, 0⟩, ⟨3, 0⟩] : List Vec2).length)) := by
  refine ⟨by decide, ?_, ?_⟩
  · norm_num [triangulate_get_neighbors]
  · exact C3_periodic_edge_filter [⟨0, 0⟩, ⟨3, 0⟩] 4 4 [(0, 5)] _ (by decide)
      (by norm_num [triangulate_get_neighbors])

/-! ## Claim C2 : frame-equal weighting of the g6 accumulator -/

/-- The squared periodic cutoff `max_valid_r²`. -/
def g6mv2 (bx by_ : ℚ) : ℚ := (min bx by_ / 2) ^ 2

/-- The accumulator after the bin-growth step of `g6accum_accumulate`. -/
def g6Ensured (A : G6Accum) (coms : List Vec2) (pbc : Bool) (bx by_ : ℚ) : G6Accum :=
  g6accum_ensure_bins A (binOf (g6Rmax2 coms pbc bx by_ (g6mv2 bx by_)) A.dr)

/-- The per-snapshot bin sums of `g6accum_accumulate` (the `snap` arrays). -/
def g6Snap (A : G6Accum) (coms : List Vec2) (psi : List CComplex) (pbc : Bool)
    (bx by_ : ℚ) : ℕ → ℚ × ℚ × ℕ :=
  g6SnapSums coms psi pbc bx by_ A.dr (g6Ensured A coms pbc bx by_).bins.length (g6mv2 bx by_)

theorem g6_ensure_dr (A : G6Accum) (bmax : ℕ) : (g6accum_ensure_bins A bmax).dr = A.dr := by
  unfold g6accum_ensure_bins
  split <;> rfl

theorem g6accum_accumulate_eq (A : G6Accum) (coms : List Vec2) (psi : List CComplex)
    (pbc : Bool) (bx by_ : ℚ) (hM : ¬ coms.length < 2)
    (hpbc : ¬ (pbc = true ∧ min bx by_ / 2 ≤ 0)) :
    g6accum_accumulate A coms psi pbc bx by_ =
      { bins := (List.range (g6Ensured A coms pbc bx by_).bins.length).map fun b =>
          let bin := (g6Ensured A coms pbc bx by_).bins.getD b (g6_newBin A.dr 0)
          if 0 < (g6Snap A coms psi pbc bx by_ b).2.2 then
            { bin with
              re_sum := bin.re_sum +
                (g6Snap A coms psi pbc bx by_ b).1 /
                  ((g6Snap A coms psi pbc bx by_ b).2.2 : ℚ),
              im_sum := bin.im_sum +
                (g6Snap A coms psi pbc bx by_ b).2.1 /
                  ((g6Snap A coms psi pbc bx by_ b).2.2 : ℚ),
              pair_count := bin.pair_count + (g6Snap A coms psi pbc bx by_ b).2.2,
              sample_count := bin.sample_count + 1 }
          else bin,
        dr := (g6Ensured A coms pbc bx by_).dr } := by
  unfold g6accum_accumulate
  rw [if_neg hM, if_neg hpbc]
  rfl

theorem g6SnapSums_out_of_range (coms : List Vec2) (psi : List CComplex) (pbc : Bool)
    (bx by_ dr : ℚ) (nbins : ℕ) (mv2 : ℚ) (b : ℕ) (hb : ¬ b < nbins) :
    g6SnapSums coms psi pbc bx by_ dr nbins mv2 b = (0, 0, 0) := by
  unfold g6SnapSums
  have hstep : ∀ (L : List (ℕ × ℕ)) (s : ℕ → ℚ × ℚ × ℕ), s b = (0, 0, 0) →
      (L.foldl
        (fun s ij =>
          let r2 := dist2 pbc bx by_ (getV coms ij.1) (getV coms ij.2)
          if pbc = true ∧ mv2 < r2 then s
          else
            let b' := binOf r2 dr
            if b' < nbins then
              let a := getC psi ij.1
              let c := getC psi ij.2
              Function.update s b'
                ((s b').1 + (a.re * c.re + a.im * c.im),
                 (s b').2.1 + (a.im * c.re - a.re * c.im),
                 (s b').2.2 + 1)
            else s)
        s) b = (0, 0, 0) := by
    intro L
    induction L with
    | nil => exact fun s h => h
    | cons ij t ih =>
      intro s h
      rw [List.foldl_cons]
      apply ih
      simp only
      split
      · exact h
      · split
        · rw [Function.update_noteq]
          · exact h
          · rename_i hlt _
            intro hbb
            rw [hbb] at hb
            exact hb (by assumption)
        · exact h
  exact hstep _ _ rfl

theorem g6Snap_cnt_pos_lt (A : G6Accum) (coms : List Vec2) (psi : List CComplex)
    (pbc : Bool) (bx by_ : ℚ) (b : ℕ)
    (h : 0 < (g6Snap A coms psi pbc bx by_ b).2.2) :
    b < (g6Ensured A coms pbc bx by_).bins.length := by
  by_contra hb
  rw [g6Snap, g6SnapSums_out_of_range _ _ _ _ _ _ _ _ _ hb] at h
  exact lt_irrefl 0 h

theorem g6Ensured_fresh_getElem (dr : ℚ) (coms : List Vec2) (pbc : Bool) (bx by_ : ℚ)
    (b : ℕ) (hb : b < (g6Ensured ⟨[], dr⟩ coms pbc bx by_).bins.length) :
    (g6Ensured ⟨[], dr⟩ coms pbc bx by_).bins[b]? = some (g6_newBin dr b) := by
  unfold g6Ensured g6accum_ensure_bins at hb ⊢
  simp only [List.length_nil, Nat.not_lt_zero, if_false, List.nil_append, Nat.sub_zero,
    List.length_map, List.length_range] at hb ⊢
  rw [List.getElem?_map, List.getElem?_range hb]
  simp

/-- Claim C2: in `g6accum_accumulate`, each snapshot's pair contributions to
a bin are first averaged within the snapshot (divided by the snapshot's pair
count in that bin) and only the per-snapshot mean is added to the running
sums (sample count +1); `g6accum_write` divides the running sums by the
number of contributing snapshots; consequently two snapshots with the same
per-bin mean but different pair counts give the same final bin value. -/
theorem C2_g6_frame_equal_weighting
    (A : G6Accum) (coms : List Vec2) (psi : List CComplex) (pbc : Bool) (bx by_ : ℚ)
    (hM : ¬ coms.length < 2) (hpbc : ¬ (pbc = true ∧ min bx by_ / 2 ≤ 0))
    (dr : ℚ) (coms1 coms2 : List Vec2) (psi1 psi2 : List CComplex) (b : ℕ)
    (hM1 : ¬ coms1.length < 2) (hM2 : ¬ coms2.length < 2)
    (hc1 : 0 < (g6Snap ⟨[], dr⟩ coms1 psi1 pbc bx by_ b).2.2)
    (hc2 : 0 < (g6Snap ⟨[], dr⟩ coms2 psi2 pbc bx by_ b).2.2)
    (hre : (g6Snap ⟨[], dr⟩ coms1 psi1 pbc bx by_ b).1 /
        ((g6Snap ⟨[], dr⟩ coms1 psi1 pbc bx by_ b).2.2 : ℚ) =
      (g6Snap ⟨[], dr⟩ coms2 psi2 pbc bx by_ b).1 /
        ((g6Snap ⟨[], dr⟩ coms2 psi2 pbc bx by_ b).2.2 : ℚ))
    (him : (g6Snap ⟨[], dr⟩ coms1 psi1 pbc bx by_ b).2.1 /
        ((g6Snap ⟨[], dr⟩ coms1 psi1 pbc bx by_ b).2.2 : ℚ) =
      (g6Snap ⟨[], dr⟩ coms2 psi2 pbc bx by_ b).2.1 /
        ((g6Snap ⟨[], dr⟩ coms2 psi2 pbc bx by_ b).2.2 : ℚ)) :
    (∀ b', b' < (g6Ensured A coms pbc bx by_).bins.length →
      (g6accum_accumulate A coms psi pbc bx by_).bins.getD b' (g6_newBin A.dr 0) =
        (if 0 < (g6Snap A coms psi pbc bx by_ b').2.2 then
          { (g6Ensured A coms pbc bx by_).bins.getD b' (g6_newBin A.dr 0) with
            re_sum := ((g6Ensured A coms pbc bx by_).bins.getD b' (g6_newBin A.dr 0)).re_sum +
              (g6Snap A coms psi pbc bx by_ b').1 /
                ((g6Snap A coms psi pbc bx by_ b').2.2 : ℚ),
            im_sum := ((g6Ensured A coms pbc bx by_).bins.getD b' (g6_newBin A.dr 0)).im_sum +
              (g6Snap A coms psi pbc bx by_ b').2.1 /
                ((g6Snap A coms psi pbc bx by_ b').2.2 : ℚ),
            pair_count :=
              ((g6Ensured A coms pbc bx by_).bins.getD b' (g6_newBin A.dr 0)).pair_count +
                (g6Snap A coms psi pbc bx by_ b').2.2,
            sample_count :=
              ((g6Ensured A coms pbc bx by_).bins.getD b' (g6_newBin A.dr 0)).sample_count + 1 }
        else (g6Ensured A coms pbc bx by_).bins.getD b' (g6_newBin A.dr 0))) ∧
    (∀ (B : G6Accum) (b' : ℕ) (bin : G6Bin), B.bins[b']? = some bin → bin.sample_count ≠ 0 →
      g6_value B b' = some (bin.re_sum / (bin.sample_count : ℚ),
        bin.im_sum / (bin.sample_count : ℚ))) ∧
    (g6_value (g6accum_accumulate ⟨[], dr⟩ coms1 psi1 pbc bx by_) b =
        some ((g6Snap ⟨[], dr⟩ coms1 psi1 pbc bx by_ b).1 /
          ((g6Snap ⟨[], dr⟩ coms1 psi1 pbc bx by_ b).2.2 : ℚ),
          (g6Snap ⟨[], dr⟩ coms1 psi1 pbc bx by_ b).2.1 /
          ((g6Snap ⟨[], dr⟩ coms1 psi1 pbc bx by_ b).2.2 : ℚ)) ∧
      g6_value (g6accum_accumulate ⟨[], dr⟩ coms1 psi1 pbc bx by_) b =
        g6_value (g6accum_accumulate ⟨[], dr⟩ coms2 psi2 pbc bx by_) b) := by
  have hwrite : ∀ (B : G6Accum) (b' : ℕ) (bin : G6Bin), B.bins[b']? = some bin →
      bin.sample_count ≠ 0 →
      g6_value B b' = some (bin.re_sum / (bin.sample_count : ℚ),
        bin.im_sum / (bin.sample_count : ℚ)) := by
    intro B b' bin hbin hs
    unfold g6_value
    rw [hbin]
    simp only [if_neg hs]
  have hfresh : ∀ (coms' : List Vec2) (psi' : List CComplex), ¬ coms'.length < 2 →
      0 < (g6Snap ⟨[], dr⟩ coms' psi' pbc bx by_ b).2.2 →
      g6_value (g6accum_accumulate ⟨[], dr⟩ coms' psi' pbc bx by_) b =
        some ((g6Snap ⟨[], dr⟩ coms' psi' pbc bx by_ b).1 /
          ((g6Snap ⟨[], dr⟩ coms' psi' pbc bx by_ b).2.2 : ℚ),
          (g6Snap ⟨[], dr⟩ coms' psi' pbc bx by_ b).2.1 /
          ((g6Snap ⟨[], dr⟩ coms' psi' pbc bx by_ b).2.2 : ℚ)) := by
    intro coms' psi' hM' hc'
    have hblt := g6Snap_cnt_pos_lt ⟨[], dr⟩ coms' psi' pbc bx by_ b hc'
    have hbins : (g6accum_accumulate ⟨[], dr⟩ coms' psi' pbc bx by_).bins[b]? =
        some { r_center := (g6_newBin dr b).r_center,
               re_sum := (g6_newBin dr b).re_sum +
                 (g6Snap ⟨[], dr⟩ coms' psi' pbc bx by_ b).1 /
                   ((g6Snap ⟨[], dr⟩ coms' psi' pbc bx by_ b).2.2 : ℚ),
               im_sum := (g6_newBin dr b).im_sum +
                 (g6Snap ⟨[], dr⟩ coms' psi' pbc bx by_ b).2.1 /
                   ((g6Snap ⟨[], dr⟩ coms' psi' pbc bx by_ b).2.2 : ℚ),
               pair_count := (g6_newBin dr b).pair_count +
                 (g6Snap ⟨[], dr⟩ coms' psi' pbc bx by_ b).2.2,
               sample_count := (g6_newBin dr b).sample_count + 1 } := by
      rw [g6accum_accumulate_eq ⟨[], dr⟩ coms' psi' pbc bx by_ hM' hpbc]
      simp only [List.getElem?_map, List.getElem?_range hblt, Option.map_some',
        Option.some.injEq, List.getD_eq_getElem?_getD,
        g6Ensured_fresh_getElem dr coms' pbc bx by_ b hblt, Option.getD_some, if_pos hc']
    rw [hwrite _ b _ hbins (by simp [g6_newBin])]
    norm_num [g6_newBin]
  refine ⟨?_, hwrite, ?_, ?_⟩
  · intro b' hb'
    rw [g6accum_accumulate_eq A coms psi pbc bx by_ hM hpbc]
    simp only [getD_map_range _ _ hb']
  · exact hfresh coms1 psi1 hM1 hc1
  · rw [hfresh coms1 psi1 hM1 hc1, hfresh coms2 psi2 hM2 hc2, hre, him]

/-- Claim C2 witness: a 1-pair snapshot and a 3-pair snapshot with the same
per-bin mean (1, 0) in bin 0 give the same final g6 value. -/
theorem C2_witness :
    0 < (g6Snap ⟨[], 1⟩ [⟨0, 0⟩, ⟨0, 0⟩] [⟨1, 0⟩, ⟨1, 0⟩] false 1 1 0).2.2 ∧
    0 < (g6Snap ⟨[], 1⟩ [⟨0, 0⟩, ⟨0, 0⟩, ⟨0, 0⟩] [⟨1, 0⟩, ⟨1, 0⟩, ⟨1, 0⟩] false 1 1 0).2.2 ∧
    g6_value (g6accum_accumulate ⟨[], 1⟩ [⟨0, 0⟩, ⟨0, 0⟩] [⟨1, 0⟩, ⟨1, 0⟩] false 1 1) 0 =
      g6_value (g6accum_accumulate ⟨[], 1⟩ [⟨0, 0⟩, ⟨0, 0⟩, ⟨0, 0⟩]
        [⟨1, 0⟩, ⟨1, 0⟩, ⟨1, 0⟩] false 1 1) 0 := by
  have hs1 : g6Snap ⟨[], 1⟩ [⟨0, 0⟩, ⟨0, 0⟩] [⟨1, 0⟩, ⟨1, 0⟩] false 1 1 0 = (1, 0, 1) := by
    norm_num [g6Snap, g6SnapSums, g6Ensured, g6accum_ensure_bins, g6Rmax2, g6mv2, allPairs,
      dist2, pairDelta, getV, getC, binOf, List.range_succ, Function.update]
  have hs2 : g6Snap ⟨[], 1⟩ [⟨0, 0⟩, ⟨0, 0⟩, ⟨0, 0⟩] [⟨1, 0⟩, ⟨1, 0⟩, ⟨1, 0⟩] false 1 1 0 =
      (3, 0, 3) := by
    norm_num [g6Snap, g6SnapSums, g6Ensured, g6accum_ensure_bins, g6Rmax2, g6mv2, allPairs,
      dist2, pairDelta, getV, getC, binOf, List.range_succ, Function.update]
  have h := C2_g6_frame_equal_weighting ⟨[], 1⟩ [⟨0, 0⟩, ⟨0, 0⟩] [⟨1, 0⟩, ⟨1, 0⟩] false 1 1
    (by decide) (by simp) 1 [⟨0, 0⟩, ⟨0, 0⟩] [⟨0, 0⟩, ⟨0, 0⟩, ⟨0, 0⟩]
    [⟨1, 0⟩, ⟨1, 0⟩] [⟨1, 0⟩, ⟨1, 0⟩, ⟨1, 0⟩] 0 (by decide) (by decide)
    (by rw [hs1]; decide) (by rw [hs2]; decide)
    (by rw [hs1, hs2]; norm_num) (by rw [hs1, hs2]; norm_num)
  exact ⟨by rw [hs1]; decide, by rw [hs2]; decide, h.2.2.2⟩

/-! ## Claim C4 : the hexatic order parameter -/

theorem list_sum_map_const_one {α : Type} (L : List α) :
    (L.map fun _ => (1 : ℝ)).sum = (L.length : ℝ) := by
  induction L with
  | nil => simp
  | cons a t ih =>
    rw [List.map_cons, List.sum_cons, ih, List.length_cons]
    push_cast
    ring

theorem abs_list_sum_le (L : List ℂ) :
    Complex.abs L.sum ≤ (L.map fun z => Complex.abs z).sum := by
  induction L with
  | nil => simp
  | cons z t ih =>
    rw [List.sum_cons, List.map_cons, List.sum_cons]
    exact le_trans (Complex.abs.add_le z t.sum) (by linarith)

/-- The fold of `psi6At` accumulates the sums of `cos(6θ)` and `sin(6θ)`
over the (valid) neighbors. -/
theorem psi6_fold_eq (coms : List Vec2) (i : ℕ) (pbc : Bool) (bx by_ : ℚ) :
    ∀ (L : List ℕ) (s : ℝ × ℝ), (∀ j ∈ L, j < coms.length) →
      L.foldl
        (fun s j =>
          if j < coms.length then
            let d := pairDelta pbc bx by_ (getV coms i) (getV coms j)
            let theta := bondAngle d.1 d.2
            (s.1 + Real.cos (6 * theta), s.2 + Real.sin (6 * theta))
          else s)
        s =
      (s.1 + (L.map fun j => Real.cos (6 * bondAngle
          (pairDelta pbc bx by_ (getV coms i) (getV coms j)).1
          (pairDelta pbc bx by_ (getV coms i) (getV coms j)).2)).sum,
       s.2 + (L.map fun j => Real.sin (6 * bondAngle
          (pairDelta pbc bx by_ (getV coms i) (getV coms j)).1
          (pairDelta pbc bx by_ (getV coms i) (getV coms j)).2)).sum) := by
  intro L
  induction L with
  | nil =>
    intro s _
    simp
  | cons j t ih =>
    intro s hval
    rw [List.foldl_cons, List.map_cons, List.map_cons, List.sum_cons, List.sum_cons]
    rw [if_pos (hval j (List.mem_cons_self _ _))]
    rw [ih _ fun j' hj' => hval j' (List.mem_cons_of_mem _ hj')]
    simp only
    rw [add_assoc, add_assoc]

/-- The exponential form of the per-neighbor sum. -/
theorem psi6_sum_exp (coms : List Vec2) (i : ℕ) (pbc : Bool) (bx by_ : ℚ) (L : List ℕ) :
    ((L.map fun j => Complex.exp
        (((6 * bondAngle (pairDelta pbc bx by_ (getV coms i) (getV coms j)).1
          (pairDelta pbc bx by_ (getV coms i) (getV coms j)).2 : ℝ) : ℂ) * Complex.I)).sum.re =
      (L.map fun j => Real.cos (6 * bondAngle
        (pairDelta pbc bx by_ (getV coms i) (getV coms j)).1
        (pairDelta pbc bx by_ (getV coms i) (getV coms j)).2)).sum) ∧
    ((L.map fun j => Complex.exp
        (((6 * bondAngle (pairDelta pbc bx by_ (getV coms i) (getV coms j)).1
          (pairDelta pbc bx by_ (getV coms i) (getV coms j)).2 : ℝ) : ℂ) * Complex.I)).sum.im =
      (L.map fun j => Real.sin (6 * bondAngle
        (pairDelta pbc bx by_ (getV coms i) (getV coms j)).1
        (pairDelta pbc bx by_ (getV coms i) (getV coms j)).2)).sum) := by
  induction L with
  | nil => simp
  | cons j t ih =>
    simp only [List.map_cons, List.sum_cons, Complex.add_re, Complex.add_im,
      Complex.exp_ofReal_mul_I_re, Complex.exp_ofReal_mul_I_im, ih.1, ih.2]
    exact ⟨trivial, trivial⟩

/-- Claim C4: `psi6` is the neighbor-average of `exp(i·6θ)` over the bond
angles, zero when there are no neighbors, and of magnitude in `[0, 1]`. -/
theorem C4_psi6_contract (coms : List Vec2) (neighbors : List (List ℕ)) (pbc : Bool)
    (bx by_ : ℚ) (i : ℕ) (hi : i < coms.length)
    (hvalid : ∀ j ∈ neighbors.getD i [], j < coms.length) :
    (∀ l, compute_psi6_from_neighbors coms neighbors pbc bx by_ = some l →
      l.getD i 0 = psi6At coms i (neighbors.getD i []) pbc bx by_) ∧
    ((neighbors.getD i []).length = 0 →
      psi6At coms i (neighbors.getD i []) pbc bx by_ = 0) ∧
    (psi6At coms i (neighbors.getD i []) pbc bx by_ =
      if (neighbors.getD i []).length = 0 then 0
      else ((neighbors.getD i []).map fun j => Complex.exp
          (((6 * bondAngle (pairDelta pbc bx by_ (getV coms i) (getV coms j)).1
            (pairDelta pbc bx by_ (getV coms i) (getV coms j)).2 : ℝ) : ℂ) * Complex.I)).sum /
        (((neighbors.getD i []).length : ℕ) : ℂ)) ∧
    Complex.abs (psi6At coms i (neighbors.getD i []) pbc bx by_) ≤ 1 ∧
    0 ≤ Complex.abs (psi6At coms i (neighbors.getD i []) pbc bx by_) := by
  have hM : ¬ coms.length = 0 := by omega
  have hformula : psi6At coms i (neighbors.getD i []) pbc bx by_ =
      if (neighbors.getD i []).length = 0 then 0
      else ((neighbors.getD i []).map fun j => Complex.exp
          (((6 * bondAngle (pairDelta pbc bx by_ (getV coms i) (getV coms j)).1
            (pairDelta pbc bx by_ (getV coms i) (getV coms j)).2 : ℝ) : ℂ) * Complex.I)).sum /
        (((neighbors.getD i []).length : ℕ) : ℂ) := by
    by_cases hk : (neighbors.getD i []).length = 0
    · rw [if_pos hk]
      unfold psi6At
      rw [if_pos hk]
    · rw [if_neg hk]
      unfold psi6At
      rw [if_neg hk]
      rw [psi6_fold_eq coms i pbc bx by_ _ _ hvalid]
      obtain ⟨hre, him⟩ := psi6_sum_exp coms i pbc bx by_ (neighbors.getD i [])
      apply Complex.ext
      · simp only [← Complex.ofReal_natCast, Complex.div_ofReal_re, hre]
        simp
      · simp only [← Complex.ofReal_natCast, Complex.div_ofReal_im, him]
        simp
  have habs : Complex.abs (psi6At coms i (neighbors.getD i []) pbc bx by_) ≤ 1 := by
    rw [hformula]
    by_cases hk : (neighbors.getD i []).length = 0
    · rw [if_pos hk]
      simp
    · rw [if_neg hk]
      rw [map_div₀ Complex.abs, Complex.abs_natCast]
      have hk' : (0 : ℝ) < ((neighbors.getD i []).length : ℝ) := by
        have : 0 < (neighbors.getD i []).length := Nat.pos_of_ne_zero hk
        exact_mod_cast this
      rw [div_le_one hk']
      calc Complex.abs ((neighbors.getD i []).map fun j => Complex.exp
            (((6 * bondAngle (pairDelta pbc bx by_ (getV coms i) (getV coms j)).1
              (pairDelta pbc bx by_ (getV coms i) (getV coms j)).2 : ℝ) : ℂ) * Complex.I)).sum
          ≤ (((neighbors.getD i []).map fun j => Complex.exp
            (((6 * bondAngle (pairDelta pbc bx by_ (getV coms i) (getV coms j)).1
              (pairDelta pbc bx by_ (getV coms i) (getV coms j)).2 : ℝ) : ℂ) * Complex.I)).map
                fun z => Complex.abs z).sum := by
            exact abs_list_sum_le _
        _ = ((neighbors.getD i []).length : ℝ) := by
            rw [List.map_map]
            rw [show ((fun z => Complex.abs z) ∘ fun j => Complex.exp
                  (((6 * bondAngle (pairDelta pbc bx by_ (getV coms i) (getV coms j)).1
                    (pairDelta pbc bx by_ (getV coms i) (getV coms j)).2 : ℝ) : ℂ) *
                    Complex.I)) = fun (_ : ℕ) => (1 : ℝ) from
              funext fun j => Complex.abs_exp_ofReal_mul_I _]
            exact list_sum_map_const_one _
  refine ⟨?_, ?_, hformula, habs, Complex.abs.nonneg _⟩
  · intro l hl
    unfold compute_psi6_from_neighbors at hl
    rw [if_neg hM] at hl
    cases hl
    rw [getD_map_range _ _ hi]
  · intro hk
    unfold psi6At
    rw [if_pos hk]

/-- Claim C4 witness: the contract at a concrete two-point configuration. -/
theorem C4_witness :
    (∀ j ∈ ([[1], [0]] : List (List ℕ)).getD 0 [], j < ([⟨0, 0⟩, ⟨1, 0⟩] : List Vec2).length) ∧
    Complex.abs (psi6At [⟨0, 0⟩, ⟨1, 0⟩] 0 (([[1], [0]] : List (List ℕ)).getD 0 [])
      false 1 1) ≤ 1 ∧
    0 ≤ Complex.abs (psi6At [⟨0, 0⟩, ⟨1, 0⟩] 0 (([[1], [0]] : List (List ℕ)).getD 0 [])
      false 1 1) := by
  have h := C4_psi6_contract [⟨0, 0⟩, ⟨1, 0⟩] [[1], [0]] false 1 1 0 (by decide) (by decide)
  exact ⟨by decide, h.2.2.2.1, h.2.2.2.2⟩

/-! ## Claim C1 : union-find machinery -/

/-- A root of the parent forest. -/
def isRoot (p : ℕ → ℕ) (r : ℕ) : Prop := p r = r

/-- The parent chain from `i` reaches the root `r`. -/
def RootedAt (p : ℕ → ℕ) (i r : ℕ) : Prop := isRoot p r ∧ ∃ k, p^[k] i = r

/-- Invariant of the union-find parent function: indices below `n` stay
below `n`, and every index reaches a root. -/
def PInv (p : ℕ → ℕ) (n : ℕ) : Prop :=
  (∀ i, i < n → p i < n) ∧ (∀ i, ∃ r, RootedAt p i r)

/-- Two indices with a common root. -/
def SameRoot (p : ℕ → ℕ) (a b : ℕ) : Prop := ∃ r, RootedAt p a r ∧ RootedAt p b r

theorem rootedAt_unique {p : ℕ → ℕ} {i r s : ℕ}
    (hr : RootedAt p i r) (hs : RootedAt p i s) : r = s := by
  obtain ⟨hr1, k, hk⟩ := hr
  obtain ⟨hs1, l, hl⟩ := hs
  rcases le_total k l with h | h
  · have hlr : p^[l] i = r := by
      rw [← Nat.sub_add_cancel h, Function.iterate_add_apply, hk]
      exact Function.iterate_fixed hr1 _
    rw [hlr] at hl
    exact hl
  · have hks : p^[k] i = s := by
      rw [← Nat.sub_add_cancel h, Function.iterate_add_apply, hl]
      exact Function.iterate_fixed hs1 _
    rw [hks] at hk
    exact hk.symm

theorem sameRoot_equivalence {p : ℕ → ℕ} (hR : ∀ j, ∃ r, RootedAt p j r) :
    Equivalence (SameRoot p) := by
  refine ⟨fun x => ?_, fun h => ?_, fun h1 h2 => ?_⟩
  · obtain ⟨r, hr⟩ := hR x
    exact ⟨r, hr, hr⟩
  · obtain ⟨r, h1, h2⟩ := h
    exact ⟨r, h2, h1⟩
  · obtain ⟨r, ha, hb⟩ := h1
    obtain ⟨s, hb', hc⟩ := h2
    rw [rootedAt_unique hb hb'] at ha
    exact ⟨s, ha, hc⟩

theorem iterate_lt {p : ℕ → ℕ} {n : ℕ} (h1 : ∀ i, i < n → p i < n) {i : ℕ} (hi : i < n) :
    ∀ k, p^[k] i < n := by
  intro k
  induction k with
  | zero => exact hi
  | succ k ih =>
    rw [Function.iterate_succ_apply']
    exact h1 _ ih

theorem rooted_min_path {p : ℕ → ℕ} {i : ℕ} (h : ∃ k, p (p^[k] i) = p^[k] i) :
    ∃ k, p (p^[k] i) = p^[k] i ∧ ∀ a b, a < b → b ≤ k → p^[a] i ≠ p^[b] i := by
  classical
  refine ⟨Nat.find h, Nat.find_spec h, ?_⟩
  intro a b hab hbk heq
  have hklt : (Nat.find h - b) + a < Nat.find h := by omega
  apply Nat.find_min h hklt
  have h1 : p^[(Nat.find h - b) + a] i = p^[Nat.find h] i := by
    rw [Function.iterate_add_apply, heq, ← Function.iterate_add_apply]
    congr 1
    omega
  rw [h1]
  exact Nat.find_spec h

theorem min_path_bound {p : ℕ → ℕ} {n i : ℕ} (hInv : PInv p n) (hi : i < n) :
    ∃ k, k < n ∧ isRoot p (p^[k] i) := by
  obtain ⟨r, hroot, m, hm⟩ := hInv.2 i
  have hex : ∃ k, p (p^[k] i) = p^[k] i := ⟨m, by rw [hm]; exact hroot⟩
  obtain ⟨k, hk, hdist⟩ := rooted_min_path hex
  refine ⟨k, ?_, hk⟩
  have hinj : Set.InjOn (fun a => p^[a] i) (Finset.range (k + 1)) := by
    intro a ha b hb hab
    simp only [Finset.coe_range, Set.mem_Iio] at ha hb
    by_contra hne
    rcases Nat.lt_or_ge a b with h | h
    · exact hdist a b h (by omega) hab
    · have h' : b < a := by omega
      exact hdist b a h' (by omega) hab.symm
  have hmaps : ∀ a ∈ Finset.range (k + 1), (fun a => p^[a] i) a ∈ Finset.range n := by
    intro a _
    simp only [Finset.mem_range]
    exact iterate_lt hInv.1 hi a
  have hcard := Finset.card_le_card_of_injOn _ hmaps hinj
  simp only [Finset.card_range] at hcard
  omega

theorem findRootAux_eq {p : ℕ → ℕ} :
    ∀ (fuel : ℕ) (i r : ℕ), (∃ k, k ≤ fuel ∧ p^[k] i = r ∧ isRoot p r) →
      findRootAux p fuel i = r := by
  intro fuel
  induction fuel with
  | zero =>
    rintro i r ⟨k, hk, hki, -⟩
    interval_cases k
    exact hki
  | succ fuel ih =>
    rintro i r ⟨k, hk, hki, hroot⟩
    unfold findRootAux
    by_cases hp : p i = i
    · rw [if_pos hp]
      rw [Function.iterate_fixed hp k] at hki
      exact hki
    · rw [if_neg hp]
      apply ih
      rcases k with _ | k'
      · rw [Function.iterate_zero_apply] at hki
        subst hki
        exact absurd hroot hp
      · exact ⟨k', by omega, by rw [← Function.iterate_succ_apply]; exact hki, hroot⟩

theorem findRootAux_rootedAt {p : ℕ → ℕ} {n : ℕ} (hInv : PInv p n) {i : ℕ} (hi : i < n) :
    RootedAt p i (findRootAux p n i) := by
  obtain ⟨k, hk, hroot⟩ := min_path_bound hInv hi
  have := findRootAux_eq n i (p^[k] i) ⟨k, by omega, rfl, hroot⟩
  rw [this]
  exact ⟨hroot, k, rfl⟩

theorem findRootAux_of_rootedAt {p : ℕ → ℕ} {n : ℕ} (hInv : PInv p n) {i s : ℕ}
    (hi : i < n) (hs : RootedAt p i s) : findRootAux p n i = s :=
  rootedAt_unique (findRootAux_rootedAt hInv hi) hs

theorem not_isRoot_of_reach {p : ℕ → ℕ} {i r : ℕ} ( _hroot : isRoot p r)
    (hreach : ∃ m, p^[m] i = r) (hir : i ≠ r) : p i ≠ i := by
  intro hpi
  obtain ⟨m, hm⟩ := hreach
  rw [Function.iterate_fixed hpi m] at hm
  exact hir hm

theorem rootedAt_update_compress_fwd {p : ℕ → ℕ} {i r : ℕ} (hroot : isRoot p r)
    (hreach : ∃ m, p^[m] i = r) (hir : i ≠ r) :
    ∀ (k j s : ℕ), p^[k] j = s → isRoot p s → RootedAt (Function.update p i r) j s := by
  have hpi : p i ≠ i := not_isRoot_of_reach hroot hreach hir
  intro k
  induction k with
  | zero =>
    intro j s hj hs
    rw [Function.iterate_zero_apply] at hj
    subst hj
    have hji : j ≠ i := fun h => hpi (h ▸ hs)
    refine ⟨?_, 0, rfl⟩
    show Function.update p i r j = j
    rw [Function.update_noteq hji]
    exact hs
  | succ k ih =>
    intro j s hj hs
    rw [Function.iterate_succ_apply] at hj
    by_cases hji : j = i
    · rw [hji] at hj ⊢
      have hsr : s = r :=
        rootedAt_unique ⟨hs, k + 1, by rw [Function.iterate_succ_apply]; exact hj⟩
          ⟨hroot, hreach⟩
      rw [hsr]
      refine ⟨?_, 1, ?_⟩
      · show Function.update p i r r = r
        rw [Function.update_noteq fun h => hir h.symm]
        exact hroot
      · rw [Function.iterate_one, Function.update_same]
    · obtain ⟨hroot', k', hk'⟩ := ih (p j) s hj hs
      exact ⟨hroot', k' + 1, by
        rw [Function.iterate_succ_apply, Function.update_noteq hji]
        exact hk'⟩

theorem rootedAt_update_compress_bwd {p : ℕ → ℕ} {i r : ℕ} (hroot : isRoot p r)
    (hreach : ∃ m, p^[m] i = r) (hir : i ≠ r) :
    ∀ (k j s : ℕ), (Function.update p i r)^[k] j = s →
      isRoot (Function.update p i r) s → RootedAt p j s := by
  have hpi : p i ≠ i := not_isRoot_of_reach hroot hreach hir
  have hri : r ≠ i := fun h => hir h.symm
  have hir' : ¬ isRoot (Function.update p i r) i := by
    show ¬ Function.update p i r i = i
    rw [Function.update_same]
    exact hri
  intro k
  induction k with
  | zero =>
    intro j s hj hs
    rw [Function.iterate_zero_apply] at hj
    subst hj
    have hji : j ≠ i := fun h => hir' (h ▸ hs)
    refine ⟨?_, 0, rfl⟩
    show p j = j
    have h2 : Function.update p i r j = j := hs
    rwa [Function.update_noteq hji] at h2
  | succ k ih =>
    intro j s hj hs
    rw [Function.iterate_succ_apply] at hj
    by_cases hji : j = i
    · rw [hji] at hj ⊢
      rw [Function.update_same] at hj
      have hroot' : isRoot (Function.update p i r) r := by
        show Function.update p i r r = r
        rw [Function.update_noteq hri]
        exact hroot
      have hsr : s = r := by
        rw [Function.iterate_fixed hroot' k] at hj
        exact hj.symm
      rw [hsr]
      exact ⟨hroot, hreach⟩
    · rw [Function.update_noteq hji] at hj
      obtain ⟨hroot', k', hk'⟩ := ih (p j) s hj hs
      exact ⟨hroot', k' + 1, by rw [Function.iterate_succ_apply]; exact hk'⟩

theorem rootedAt_update_compress {p : ℕ → ℕ} {i r : ℕ} (hroot : isRoot p r)
    (hreach : ∃ m, p^[m] i = r) (hir : i ≠ r) :
    ∀ j s, RootedAt p j s ↔ RootedAt (Function.update p i r) j s := by
  intro j s
  constructor
  · rintro ⟨hs, k, hk⟩
    exact rootedAt_update_compress_fwd hroot hreach hir k j s hk hs
  · rintro ⟨hs, k, hk⟩
    exact rootedAt_update_compress_bwd hroot hreach hir k j s hk hs

theorem rootedAt_update_link_fwd {p : ℕ → ℕ} {ra rb : ℕ} (hra : isRoot p ra)
    (hrb : isRoot p rb) (hne : ra ≠ rb) :
    ∀ (k j s : ℕ), p^[k] j = s → isRoot p s →
      (s = rb → RootedAt (Function.update p rb ra) j ra) ∧
      (s ≠ rb → RootedAt (Function.update p rb ra) j s) := by
  have hra' : isRoot (Function.update p rb ra) ra := by
    show Function.update p rb ra ra = ra
    rw [Function.update_noteq hne]
    exact hra
  intro k
  induction k with
  | zero =>
    intro j s hj hs
    rw [Function.iterate_zero_apply] at hj
    subst hj
    constructor
    · rintro rfl
      exact ⟨hra', 1, by rw [Function.iterate_one, Function.update_same]⟩
    · intro hjrb
      refine ⟨?_, 0, rfl⟩
      show Function.update p rb ra j = j
      rw [Function.update_noteq hjrb]
      exact hs
  | succ k ih =>
    intro j s hj hs
    rw [Function.iterate_succ_apply] at hj
    by_cases hjrb : j = rb
    · rw [hjrb] at hj ⊢
      rw [hrb] at hj
      have hsrb : s = rb := by
        rw [Function.iterate_fixed hrb k] at hj
        exact hj.symm
      rw [hsrb]
      refine ⟨fun _ => ⟨hra', 1, ?_⟩, fun h => absurd rfl h⟩
      rw [Function.iterate_one, Function.update_same]
    · have := ih (p j) s hj hs
      constructor
      · rintro rfl
        obtain ⟨hroot', k', hk'⟩ := this.1 rfl
        exact ⟨hroot', k' + 1, by
          rw [Function.iterate_succ_apply, Function.update_noteq hjrb]
          exact hk'⟩
      · intro hsrb
        obtain ⟨hroot', k', hk'⟩ := this.2 hsrb
        exact ⟨hroot', k' + 1, by
          rw [Function.iterate_succ_apply, Function.update_noteq hjrb]
          exact hk'⟩

theorem rootedAt_update_link_bwd {p : ℕ → ℕ} {ra rb : ℕ} (hra : isRoot p ra)
    (hrb : isRoot p rb) (hne : ra ≠ rb) :
    ∀ (k j s : ℕ), (Function.update p rb ra)^[k] j = s →
      isRoot (Function.update p rb ra) s →
      (RootedAt p j rb ∧ s = ra) ∨ (RootedAt p j s ∧ s ≠ rb) := by
  have hrbroot : ¬ isRoot (Function.update p rb ra) rb := by
    show ¬ Function.update p rb ra rb = rb
    rw [Function.update_same]
    exact hne
  intro k
  induction k with
  | zero =>
    intro j s hj hs
    rw [Function.iterate_zero_apply] at hj
    subst hj
    have hjrb : j ≠ rb := fun h => hrbroot (h ▸ hs)
    refine Or.inr ⟨⟨?_, 0, rfl⟩, hjrb⟩
    show p j = j
    have h2 : Function.update p rb ra j = j := hs
    rwa [Function.update_noteq hjrb] at h2
  | succ k ih =>
    intro j s hj hs
    rw [Function.iterate_succ_apply] at hj
    by_cases hjrb : j = rb
    · rw [hjrb] at hj ⊢
      rw [Function.update_same] at hj
      have hra' : isRoot (Function.update p rb ra) ra := by
        show Function.update p rb ra ra = ra
        rw [Function.update_noteq hne]
        exact hra
      have hsra : s = ra := by
        rw [Function.iterate_fixed hra' k] at hj
        exact hj.symm
      rw [hsra]
      exact Or.inl ⟨⟨hrb, 0, rfl⟩, rfl⟩
    · rw [Function.update_noteq hjrb] at hj
      rcases ih (p j) s hj hs with ⟨⟨hroot', k', hk'⟩, hsra⟩ | ⟨⟨hroot', k', hk'⟩, hsrb⟩
      · exact Or.inl ⟨⟨hroot', k' + 1, by rw [Function.iterate_succ_apply]; exact hk'⟩, hsra⟩
      · exact Or.inr ⟨⟨hroot', k' + 1, by rw [Function.iterate_succ_apply]; exact hk'⟩, hsrb⟩

theorem rootedAt_update_link {p : ℕ → ℕ} {ra rb : ℕ} (hra : isRoot p ra)
    (hrb : isRoot p rb) (hne : ra ≠ rb) :
    ∀ j s, RootedAt (Function.update p rb ra) j s ↔
      ((RootedAt p j rb ∧ s = ra) ∨ (RootedAt p j s ∧ s ≠ rb)) := by
  intro j s
  constructor
  · rintro ⟨hs, k, hk⟩
    exact rootedAt_update_link_bwd hra hrb hne k j s hk hs
  · rintro (⟨⟨hsb, k, hk⟩, rfl⟩ | ⟨⟨hs, k, hk⟩, hsrb⟩)
    · exact (rootedAt_update_link_fwd hra hrb hne k j rb hk hsb).1 rfl
    · exact (rootedAt_update_link_fwd hra hrb hne k j s hk hs).2 hsrb

theorem compressPath_spec {r : ℕ} :
    ∀ (fuel : ℕ) (p : ℕ → ℕ) (i : ℕ), isRoot p r → (∃ m, p^[m] i = r) →
      (∀ j s, RootedAt (compressPath r p fuel i) j s ↔ RootedAt p j s) ∧
      (∀ j, compressPath r p fuel i j = p j ∨ compressPath r p fuel i j = r) := by
  intro fuel
  induction fuel with
  | zero =>
    intro p i _ _
    exact ⟨fun j s => Iff.rfl, fun j => Or.inl rfl⟩
  | succ fuel ih =>
    intro p i hroot hreach
    unfold compressPath
    by_cases hir : i = r
    · rw [if_pos hir]
      exact ⟨fun j s => Iff.rfl, fun j => Or.inl rfl⟩
    · rw [if_neg hir]
      have hroot1 : isRoot (Function.update p i r) r := by
        show Function.update p i r r = r
        rw [Function.update_noteq fun h => hir h.symm]
        exact hroot
      have hpir : RootedAt p (p i) r := by
        obtain ⟨m, hm⟩ := hreach
        rcases m with _ | m'
        · rw [Function.iterate_zero_apply] at hm
          exact absurd hm hir
        · rw [Function.iterate_succ_apply] at hm
          exact ⟨hroot, m', hm⟩
      have hreach1 : ∃ m, (Function.update p i r)^[m] (p i) = r :=
        ((rootedAt_update_compress hroot hreach hir (p i) r).mp hpir).2
      obtain ⟨ihIff, ihPt⟩ := ih (Function.update p i r) (p i) hroot1 hreach1
      constructor
      · intro j s
        rw [ihIff j s]
        exact (rootedAt_update_compress hroot hreach hir j s).symm
      · intro j
        rcases ihPt j with h | h
        · by_cases hji : j = i
          · right
            rw [h, hji, Function.update_same]
          · left
            rw [h, Function.update_noteq hji]
        · right
          exact h

theorem sameRoot_congr {p q : ℕ → ℕ} (h : ∀ j s, RootedAt p j s ↔ RootedAt q j s) :
    ∀ x y, SameRoot p x y ↔ SameRoot q x y := by
  intro x y
  unfold SameRoot
  constructor
  · rintro ⟨r, h1, h2⟩
    exact ⟨r, (h x r).mp h1, (h y r).mp h2⟩
  · rintro ⟨r, h1, h2⟩
    exact ⟨r, (h x r).mpr h1, (h y r).mpr h2⟩

theorem uf_root_spec {uf : UF} {n : ℕ} (hn : uf.n = n) (hInv : PInv uf.parent n)
    {i : ℕ} (hi : i < n) :
    RootedAt uf.parent i (uf_root uf i).1 ∧
    (uf_root uf i).2.n = n ∧
    (∀ j s, RootedAt (uf_root uf i).2.parent j s ↔ RootedAt uf.parent j s) ∧
    PInv (uf_root uf i).2.parent n := by
  subst hn
  have hrooted : RootedAt uf.parent i (findRootAux uf.parent uf.n i) :=
    findRootAux_rootedAt hInv hi
  obtain ⟨hiff, hpt⟩ :=
    compressPath_spec uf.n uf.parent i hrooted.1 hrooted.2
  have hrlt : findRootAux uf.parent uf.n i < uf.n := by
    obtain ⟨-, k, hk⟩ := hrooted
    rw [← hk]
    exact iterate_lt hInv.1 hi k
  refine ⟨hrooted, rfl, hiff, ?_, ?_⟩
  · intro j hj
    rcases hpt j with h | h
    · rw [show (uf_root uf i).2.parent j = compressPath (findRootAux uf.parent uf.n i)
        uf.parent uf.n i j from rfl, h]
      exact hInv.1 j hj
    · rw [show (uf_root uf i).2.parent j = compressPath (findRootAux uf.parent uf.n i)
        uf.parent uf.n i j from rfl, h]
      exact hrlt
  · intro j
    obtain ⟨s, hs⟩ := hInv.2 j
    exact ⟨s, (hiff j s).mpr hs⟩

theorem pinv_link {p : ℕ → ℕ} {n ra rb : ℕ} (hInv : PInv p n) (hra : isRoot p ra)
    (hrb : isRoot p rb) (hne : ra ≠ rb) (hran : ra < n) :
    PInv (Function.update p rb ra) n := by
  constructor
  · intro j hj
    by_cases hjrb : j = rb
    · rw [hjrb, Function.update_same]
      exact hran
    · rw [Function.update_noteq hjrb]
      exact hInv.1 j hj
  · intro j
    obtain ⟨s, hs⟩ := hInv.2 j
    by_cases hsrb : s = rb
    · refine ⟨ra, (rootedAt_update_link hra hrb hne j ra).mpr (Or.inl ⟨?_, rfl⟩)⟩
      rw [← hsrb]
      exact hs
    · exact ⟨s, (rootedAt_update_link hra hrb hne j s).mpr (Or.inr ⟨hs, hsrb⟩)⟩

/-- Linking `rb` under `ra` merges exactly the classes of `a` and `b`. -/
theorem sameRoot_link {p : ℕ → ℕ} {a b ra rb : ℕ}
    (hra : RootedAt p a ra) (hrb : RootedAt p b rb) (hne : ra ≠ rb) :
    ∀ x y, SameRoot (Function.update p rb ra) x y ↔
      (SameRoot p x y ∨ (SameRoot p x a ∧ SameRoot p b y) ∨
       (SameRoot p x b ∧ SameRoot p a y)) := by
  have hraR : isRoot p ra := hra.1
  have hrbR : isRoot p rb := hrb.1
  intro x y
  constructor
  · rintro ⟨s, hxs, hys⟩
    rcases (rootedAt_update_link hraR hrbR hne x s).mp hxs with ⟨hxrb, hse⟩ | ⟨hxs', hsrb⟩
    · rw [hse] at hys
      rcases (rootedAt_update_link hraR hrbR hne y ra).mp hys with ⟨hyrb, -⟩ | ⟨hys', -⟩
      · exact Or.inl ⟨rb, hxrb, hyrb⟩
      · exact Or.inr (Or.inr ⟨⟨rb, hxrb, hrb⟩, ⟨ra, hra, hys'⟩⟩)
    · rcases (rootedAt_update_link hraR hrbR hne y s).mp hys with ⟨hyrb, hse⟩ | ⟨hys', -⟩
      · rw [hse] at hxs'
        exact Or.inr (Or.inl ⟨⟨ra, hxs', hra⟩, ⟨rb, hrb, hyrb⟩⟩)
      · exact Or.inl ⟨s, hxs', hys'⟩
  · have hlift : ∀ z t, RootedAt p z t →
        RootedAt (Function.update p rb ra) z (if t = rb then ra else t) := by
      intro z t hzt
      by_cases htrb : t = rb
      · rw [if_pos htrb]
        refine (rootedAt_update_link hraR hrbR hne z ra).mpr (Or.inl ⟨?_, rfl⟩)
        rw [← htrb]
        exact hzt
      · rw [if_neg htrb]
        exact (rootedAt_update_link hraR hrbR hne z t).mpr (Or.inr ⟨hzt, htrb⟩)
    rintro (⟨s, hxs, hys⟩ | ⟨⟨s, hxs, hsa⟩, ⟨t, htb, hty⟩⟩ | ⟨⟨s, hxs, hsb⟩, ⟨t, hta, hty⟩⟩)
    · exact ⟨if s = rb then ra else s, hlift x s hxs, hlift y s hys⟩
    · -- x ~ a (root s = ra) and b ~ y (root t = rb)
      have hsra : s = ra := rootedAt_unique hsa hra
      have htrb : t = rb := rootedAt_unique htb hrb
      refine ⟨ra, ?_, ?_⟩
      · have hx := hlift x s hxs
        rw [hsra, if_neg hne] at hx
        exact hx
      · have hy := hlift y t hty
        rw [htrb, if_pos rfl] at hy
        exact hy
    · have hsrb : s = rb := rootedAt_unique hsb hrb
      have htra : t = ra := rootedAt_unique hta hra
      refine ⟨ra, ?_, ?_⟩
      · have hx := hlift x s hxs
        rw [hsrb, if_pos rfl] at hx
        exact hx
      · have hy := hlift y t hty
        rw [htra, if_neg hne] at hy
        exact hy

/-- `uf_union` preserves the size and the invariant, and merges exactly the
classes of `a` and `b` (in any of the three rank branches). -/
theorem uf_union_spec {uf : UF} {n : ℕ} (hn : uf.n = n) (hInv : PInv uf.parent n)
    {a b : ℕ} (ha : a < n) (hb : b < n) :
    (uf_union uf a b).n = n ∧ PInv (uf_union uf a b).parent n ∧
    (∀ x y, SameRoot (uf_union uf a b).parent x y ↔
      (SameRoot uf.parent x y ∨ (SameRoot uf.parent x a ∧ SameRoot uf.parent b y) ∨
       (SameRoot uf.parent x b ∧ SameRoot uf.parent a y))) := by
  subst hn
  obtain ⟨hra1, hn1, hiff1, hInv1⟩ := uf_root_spec rfl hInv ha
  obtain ⟨hrb1, hn2, hiff2, hInv2⟩ := uf_root_spec hn1 hInv1 hb
  have hiff : ∀ j s, RootedAt (uf_root (uf_root uf a).2 b).2.parent j s ↔
      RootedAt uf.parent j s := fun j s => (hiff2 j s).trans (hiff1 j s)
  have hrb : RootedAt uf.parent b (uf_root (uf_root uf a).2 b).1 :=
    (hiff1 _ _).mp hrb1
  have hra2 : RootedAt (uf_root (uf_root uf a).2 b).2.parent a (uf_root uf a).1 :=
    (hiff _ _).mpr hra1
  have hrb2 : RootedAt (uf_root (uf_root uf a).2 b).2.parent b
      (uf_root (uf_root uf a).2 b).1 := (hiff _ _).mpr hrb
  have hralt : (uf_root uf a).1 < uf.n := by
    obtain ⟨-, k, hk⟩ := hra1
    rw [← hk]
    exact iterate_lt hInv.1 ha k
  have hrblt : (uf_root (uf_root uf a).2 b).1 < uf.n := by
    obtain ⟨-, k, hk⟩ := hrb
    rw [← hk]
    exact iterate_lt hInv.1 hb k
  have hcong2 : ∀ x y, SameRoot (uf_root (uf_root uf a).2 b).2.parent x y ↔
      SameRoot uf.parent x y := sameRoot_congr hiff
  have hEq : Equivalence (SameRoot uf.parent) := sameRoot_equivalence hInv.2
  simp only [uf_union]
  by_cases hrr : (uf_root uf a).1 = (uf_root (uf_root uf a).2 b).1
  · rw [if_pos hrr]
    have hab : SameRoot uf.parent a b := ⟨(uf_root uf a).1, hra1, by rw [hrr]; exact hrb⟩
    refine ⟨hn2, hInv2, fun x y => ?_⟩
    rw [hcong2 x y]
    constructor
    · exact Or.inl
    · rintro (h | ⟨h1, h2⟩ | ⟨h1, h2⟩)
      · exact h
      · exact hEq.trans (hEq.trans h1 hab) h2
      · exact hEq.trans (hEq.trans h1 (hEq.symm hab)) h2
  · rw [if_neg hrr]
    by_cases hrk : (uf_root (uf_root uf a).2 b).2.rank (uf_root uf a).1 <
        (uf_root (uf_root uf a).2 b).2.rank (uf_root (uf_root uf a).2 b).1
    · rw [if_pos hrk]
      refine ⟨hn2, pinv_link hInv2 hrb2.1 hra2.1 (Ne.symm hrr) hrblt, fun x y => ?_⟩
      refine Iff.trans (sameRoot_link hrb2 hra2 (Ne.symm hrr) x y) ?_
      simp only [hcong2]
      tauto
    · rw [if_neg hrk]
      by_cases hrk2 : (uf_root (uf_root uf a).2 b).2.rank (uf_root (uf_root uf a).2 b).1 <
          (uf_root (uf_root uf a).2 b).2.rank (uf_root uf a).1
      · rw [if_pos hrk2]
        refine ⟨hn2, pinv_link hInv2 hra2.1 hrb2.1 hrr hralt, fun x y => ?_⟩
        refine Iff.trans (sameRoot_link hra2 hrb2 hrr x y) ?_
        simp only [hcong2]
      · rw [if_neg hrk2]
        refine ⟨hn2, pinv_link hInv2 hra2.1 hrb2.1 hrr hralt, fun x y => ?_⟩
        refine Iff.trans (sameRoot_link hra2 hrb2 hrr x y) ?_
        simp only [hcong2]

/-- Half-away-from-zero rounding is odd. -/
theorem cround_neg (q : ℚ) : cround (-q) = -cround q := by
  unfold cround
  rcases lt_trichotomy q 0 with h | h | h
  · rw [if_pos (by linarith), if_neg (not_le.mpr h),
      show -q + 1 / 2 = -(q - 1 / 2) by ring, Int.floor_neg]
  · subst h
    norm_num
  · rw [if_neg (not_le.mpr (by linarith)), if_pos h.le,
      show -q - 1 / 2 = -(q + 1 / 2) by ring, Int.ceil_neg]

/-- The minimum-image fold is odd in the displacement. -/
theorem mic_delta_neg (d L : ℚ) : mic_delta (-d) L = -mic_delta d L := by
  unfold mic_delta
  by_cases h : L ≤ 0
  · rw [if_pos h, if_pos h]
  · rw [if_neg h, if_neg h, neg_div, cround_neg]
    push_cast
    ring

/-- The squared pair distance of the scan loops is symmetric. -/
theorem dist2_comm (use_pbc : Bool) (bx by_ : ℚ) (p q : Vec2) :
    dist2 use_pbc bx by_ p q = dist2 use_pbc bx by_ q p := by
  unfold dist2 pairDelta
  cases use_pbc with
  | false =>
    simp only [Bool.false_eq_true, if_false]
    ring
  | true =>
    simp only [if_true]
    rw [show p.x - q.x = -(q.x - p.x) by ring, show p.y - q.y = -(q.y - p.y) by ring,
      mic_delta_neg, mic_delta_neg]
    ring

/-- Equivalence generation respects pointwise equivalence of relations. -/
theorem eqvGen_congr {R S : ℕ → ℕ → Prop} (h : ∀ u v, R u v ↔ S u v) (x y : ℕ) :
    Relation.EqvGen R x y ↔ Relation.EqvGen S x y :=
  ⟨Relation.EqvGen.mono fun u v => (h u v).mp,
   Relation.EqvGen.mono fun u v => (h u v).mpr⟩

/-- The equivalence closure of the empty relation is equality. -/
theorem eqvGen_false {x y : ℕ} :
    Relation.EqvGen (fun _ _ => False) x y ↔ x = y := by
  constructor
  · intro h
    induction h with
    | rel _ _ h => exact h.elim
    | refl _ => rfl
    | symm _ _ _ ih => exact ih.symm
    | trans _ _ _ _ _ ih1 ih2 => exact ih1.trans ih2
  · rintro rfl
    exact Relation.EqvGen.refl x

/-- Adjoining a single pair `(a, b)` to a relation merges, in the generated
equivalence, exactly the classes of `a` and `b`. -/
theorem eqvGen_union_pair (R : ℕ → ℕ → Prop) (a b x y : ℕ) :
    Relation.EqvGen (fun u v => R u v ∨ (u = a ∧ v = b) ∨ (u = b ∧ v = a)) x y ↔
      (Relation.EqvGen R x y ∨
       (Relation.EqvGen R x a ∧ Relation.EqvGen R b y) ∨
       (Relation.EqvGen R x b ∧ Relation.EqvGen R a y)) := by
  have hE := Relation.EqvGen.is_equivalence R
  constructor
  · intro h
    induction h with
    | rel u v huv =>
      rcases huv with h | ⟨h1, h2⟩ | ⟨h1, h2⟩
      · exact Or.inl (Relation.EqvGen.rel _ _ h)
      · exact Or.inr (Or.inl ⟨by rw [h1]; exact hE.refl a, by rw [h2]; exact hE.refl b⟩)
      · exact Or.inr (Or.inr ⟨by rw [h1]; exact hE.refl b, by rw [h2]; exact hE.refl a⟩)
    | refl u => exact Or.inl (hE.refl u)
    | symm u v _ ih =>
      rcases ih with h | ⟨h1, h2⟩ | ⟨h1, h2⟩
      · exact Or.inl (hE.symm h)
      · exact Or.inr (Or.inr ⟨hE.symm h2, hE.symm h1⟩)
      · exact Or.inr (Or.inl ⟨hE.symm h2, hE.symm h1⟩)
    | trans u v w _ _ ih1 ih2 =>
      rcases ih1 with h | ⟨h1, h2⟩ | ⟨h1, h2⟩ <;>
        rcases ih2 with h' | ⟨h1', h2'⟩ | ⟨h1', h2'⟩
      · exact Or.inl (hE.trans h h')
      · exact Or.inr (Or.inl ⟨hE.trans h h1', h2'⟩)
      · exact Or.inr (Or.inr ⟨hE.trans h h1', h2'⟩)
      · exact Or.inr (Or.inl ⟨h1, hE.trans h2 h'⟩)
      · exact Or.inr (Or.inl ⟨h1, h2'⟩)
      · exact Or.inl (hE.trans h1 h2')
      · exact Or.inr (Or.inr ⟨h1, hE.trans h2 h'⟩)
      · exact Or.inl (hE.trans h1 h2')
      · exact Or.inr (Or.inr ⟨h1, h2'⟩)
  · have hE2 := Relation.EqvGen.is_equivalence
      (fun u v => R u v ∨ (u = a ∧ v = b) ∨ (u = b ∧ v = a))
    have hsub : ∀ {u v}, Relation.EqvGen R u v →
        Relation.EqvGen (fun u v => R u v ∨ (u = a ∧ v = b) ∨ (u = b ∧ v = a)) u v :=
      fun h => Relation.EqvGen.mono (fun u v h => Or.inl h) h
    have hab : Relation.EqvGen
        (fun u v => R u v ∨ (u = a ∧ v = b) ∨ (u = b ∧ v = a)) a b :=
      Relation.EqvGen.rel a b (Or.inr (Or.inl ⟨rfl, rfl⟩))
    rintro (h | ⟨h1, h2⟩ | ⟨h1, h2⟩)
    · exact hsub h
    · exact hE2.trans (hsub h1) (hE2.trans hab (hsub h2))
    · exact hE2.trans (hsub h1) (hE2.trans (hE2.symm hab) (hsub h2))

/-- Membership in the pair list of the `O(N^2)` scans. -/
theorem mem_allPairs {N : ℕ} {p : ℕ × ℕ} : p ∈ allPairs N ↔ p.1 < p.2 ∧ p.2 < N := by
  unfold allPairs
  simp only [List.mem_flatMap, List.mem_map, List.mem_filter, List.mem_range,
    decide_eq_true_eq]
  constructor
  · rintro ⟨i, hi, j, ⟨hj, hij⟩, rfl⟩
    exact ⟨hij, hj⟩
  · rintro ⟨h1, h2⟩
    exact ⟨p.1, lt_trans h1 h2, p.2, ⟨h2, h1⟩, rfl⟩

/-- The bonds recorded by a prefix of the pair scan: some processed pair
matches `(u, v)` in either orientation and passes the distance test. -/
def pairRel (ps : List Vec2) (lbond : ℚ) (use_pbc : Bool) (bx by_ : ℚ)
    (L : List (ℕ × ℕ)) (u v : ℕ) : Prop :=
  ∃ p ∈ L, ((u = p.1 ∧ v = p.2) ∨ (u = p.2 ∧ v = p.1)) ∧
    dist2 use_pbc bx by_ (getV ps p.1) (getV ps p.2) ≤ lbond * lbond

/-- The bond relation of the claim, read off the scan body: two distinct
valid indices within (minimum-image) distance `lbond`. -/
def bondRel (ps : List Vec2) (lbond : ℚ) (use_pbc : Bool) (bx by_ : ℚ) (u v : ℕ) : Prop :=
  u < ps.length ∧ v < ps.length ∧ u ≠ v ∧
    dist2 use_pbc bx by_ (getV ps u) (getV ps v) ≤ lbond * lbond

theorem pairRel_append (ps : List Vec2) (lbond : ℚ) (use_pbc : Bool) (bx by_ : ℚ)
    (L : List (ℕ × ℕ)) (q : ℕ × ℕ) (u v : ℕ) :
    pairRel ps lbond use_pbc bx by_ (L ++ [q]) u v ↔
      (pairRel ps lbond use_pbc bx by_ L u v ∨
       (((u = q.1 ∧ v = q.2) ∨ (u = q.2 ∧ v = q.1)) ∧
        dist2 use_pbc bx by_ (getV ps q.1) (getV ps q.2) ≤ lbond * lbond)) := by
  unfold pairRel
  constructor
  · rintro ⟨p, hp, hm, hdist⟩
    rcases List.mem_append.mp hp with h | h
    · exact Or.inl ⟨p, h, hm, hdist⟩
    · rw [List.mem_singleton] at h
      subst h
      exact Or.inr ⟨hm, hdist⟩
  · rintro (⟨p, hp, hm, hdist⟩ | ⟨hm, hdist⟩)
    · exact ⟨p, List.mem_append.mpr (Or.inl hp), hm, hdist⟩
    · exact ⟨q, List.mem_append.mpr (Or.inr (List.mem_singleton.mpr rfl)), hm, hdist⟩

/-- Invariant of the pair scan: after processing any prefix of valid pairs,
two indices share a union-find root iff they are joined by a chain of the
bonds recorded so far. -/
theorem clusterFold_inv (ps : List Vec2) (lbond : ℚ) (use_pbc : Bool) (bx by_ : ℚ)
    (L : List (ℕ × ℕ)) (hL : ∀ p ∈ L, p.1 < ps.length ∧ p.2 < ps.length) :
    (L.foldl (clusterStep ps lbond use_pbc bx by_) (uf_init ps.length)).n = ps.length ∧
    PInv (L.foldl (clusterStep ps lbond use_pbc bx by_) (uf_init ps.length)).parent
      ps.length ∧
    ∀ x y,
      SameRoot (L.foldl (clusterStep ps lbond use_pbc bx by_) (uf_init ps.length)).parent
        x y ↔
      Relation.EqvGen (pairRel ps lbond use_pbc bx by_ L) x y := by
  induction L using List.reverseRecOn with
  | nil =>
    refine ⟨rfl, ⟨fun i hi => hi, fun i => ⟨i, rfl, 0, rfl⟩⟩, fun x y => ?_⟩
    have h1 : SameRoot (uf_init ps.length).parent x y ↔ x = y := by
      constructor
      · rintro ⟨r, ⟨-, k, hk⟩, ⟨-, l, hl⟩⟩
        rw [Function.iterate_fixed rfl k] at hk
        rw [Function.iterate_fixed rfl l] at hl
        exact hk.trans hl.symm
      · rintro rfl
        exact ⟨x, ⟨rfl, 0, rfl⟩, ⟨rfl, 0, rfl⟩⟩
    refine h1.trans (eqvGen_false.symm.trans (eqvGen_congr (fun u v => ?_) x y))
    simp [pairRel]
  | append_singleton L q ih =>
    have hq := hL q (List.mem_append.mpr (Or.inr (List.mem_singleton.mpr rfl)))
    have hL' : ∀ p ∈ L, p.1 < ps.length ∧ p.2 < ps.length :=
      fun p hp => hL p (List.mem_append.mpr (Or.inl hp))
    obtain ⟨ihn, ihInv, ihSR⟩ := ih hL'
    rw [List.foldl_append]
    simp only [List.foldl_cons, List.foldl_nil]
    by_cases hd : dist2 use_pbc bx by_ (getV ps q.1) (getV ps q.2) ≤ lbond * lbond
    · unfold clusterStep
      rw [if_pos hd]
      obtain ⟨hn, hInv, hSR⟩ := uf_union_spec ihn ihInv hq.1 hq.2
      refine ⟨hn, hInv, fun x y => ?_⟩
      refine (hSR x y).trans ?_
      simp only [ihSR]
      refine ((eqvGen_union_pair _ q.1 q.2 x y).symm).trans
        (eqvGen_congr (fun u v => ?_) x y)
      rw [pairRel_append]
      tauto
    · unfold clusterStep
      rw [if_neg hd]
      refine ⟨ihn, ihInv, fun x y => ?_⟩
      refine (ihSR x y).trans (eqvGen_congr (fun u v => ?_) x y)
      rw [pairRel_append]
      tauto

/-- The symmetrized per-pair relation over the full pair list is exactly the
bond relation. -/
theorem pairRel_allPairs (ps : List Vec2) (lbond : ℚ) (use_pbc : Bool) (bx by_ : ℚ)
    (u v : ℕ) :
    pairRel ps lbond use_pbc bx by_ (allPairs ps.length) u v ↔
      bondRel ps lbond use_pbc bx by_ u v := by
  unfold pairRel bondRel
  constructor
  · rintro ⟨p, hp, hm, hdist⟩
    obtain ⟨h12, h2N⟩ := mem_allPairs.mp hp
    rcases hm with ⟨hu, hv⟩ | ⟨hu, hv⟩
    · subst hu
      subst hv
      exact ⟨lt_trans h12 h2N, h2N, Nat.ne_of_lt h12, hdist⟩
    · subst hu
      subst hv
      refine ⟨h2N, lt_trans h12 h2N, (Nat.ne_of_lt h12).symm, ?_⟩
      rw [dist2_comm]
      exact hdist
  · rintro ⟨hu, hv, hne, hdist⟩
    rcases lt_or_gt_of_ne hne with h | h
    · exact ⟨(u, v), mem_allPairs.mpr ⟨h, hv⟩, Or.inl ⟨rfl, rfl⟩, hdist⟩
    · refine ⟨(v, u), mem_allPairs.mpr ⟨h, hu⟩, Or.inr ⟨rfl, rfl⟩, ?_⟩
      rw [dist2_comm]
      exact hdist

/-- The full pair scan: shared roots are exactly bond-chain connectivity. -/
theorem clusterUF_spec (ps : List Vec2) (lbond : ℚ) (use_pbc : Bool) (bx by_ : ℚ) :
    (clusterUF ps lbond use_pbc bx by_).n = ps.length ∧
    PInv (clusterUF ps lbond use_pbc bx by_).parent ps.length ∧
    ∀ x y, SameRoot (clusterUF ps lbond use_pbc bx by_).parent x y ↔
      Relation.EqvGen (bondRel ps lbond use_pbc bx by_) x y := by
  obtain ⟨hn, hInv, hSR⟩ := clusterFold_inv ps lbond use_pbc bx by_ (allPairs ps.length)
    (fun p hp =>
      ⟨lt_trans (mem_allPairs.mp hp).1 (mem_allPairs.mp hp).2, (mem_allPairs.mp hp).2⟩)
  exact ⟨hn, hInv, fun x y =>
    (hSR x y).trans (eqvGen_congr (pairRel_allPairs ps lbond use_pbc bx by_) x y)⟩

/-- Invariant of the root pass: the produced list records, position by
position, a root of each scanned index with respect to the original parent
function, while compression keeps the rooting relation unchanged. -/
theorem rootStep_fold (uf0 : UF) (n : ℕ) :
    ∀ (l : List ℕ) (acc : List ℕ) (uf : UF), uf.n = n → PInv uf.parent n →
      (∀ j s, RootedAt uf.parent j s ↔ RootedAt uf0.parent j s) →
      (∀ i ∈ l, i < n) →
      ∃ rs : List ℕ,
        (l.foldl rootStep (acc, uf)).1 = acc ++ rs ∧
        rs.length = l.length ∧
        (∀ k (h : k < l.length), RootedAt uf0.parent (l.get ⟨k, h⟩) (rs.getD k 0)) ∧
        (l.foldl rootStep (acc, uf)).2.n = n ∧
        PInv (l.foldl rootStep (acc, uf)).2.parent n ∧
        (∀ j s, RootedAt (l.foldl rootStep (acc, uf)).2.parent j s ↔
          RootedAt uf0.parent j s) := by
  intro l
  induction l with
  | nil =>
    intro acc uf hn hInv hiff _
    exact ⟨[], by simp, rfl, fun k h => absurd h (by simp), hn, hInv, hiff⟩
  | cons i l ih =>
    intro acc uf hn hInv hiff hmem
    have hi : i < n := hmem i (List.mem_cons_self i l)
    obtain ⟨hroot, hn1, hiff1, hInv1⟩ := uf_root_spec hn hInv hi
    rw [List.foldl_cons]
    have hstep : rootStep (acc, uf) i = (acc ++ [(uf_root uf i).1], (uf_root uf i).2) := rfl
    rw [hstep]
    have hiff2 : ∀ j s, RootedAt (uf_root uf i).2.parent j s ↔ RootedAt uf0.parent j s :=
      fun j s => (hiff1 j s).trans (hiff j s)
    obtain ⟨rs, h1, h2, h3, h4, h5, h6⟩ :=
      ih (acc ++ [(uf_root uf i).1]) (uf_root uf i).2 hn1 hInv1 hiff2
        (fun j hj => hmem j (List.mem_cons_of_mem i hj))
    refine ⟨(uf_root uf i).1 :: rs, ?_, ?_, ?_, h4, h5, h6⟩
    · rw [h1, List.append_assoc, List.singleton_append]
    · rw [List.length_cons, h2, List.length_cons]
    · intro k h
      cases k with
      | zero => exact (hiff i (uf_root uf i).1).mp hroot
      | succ k => exact h3 k (Nat.lt_of_succ_lt_succ h)

/-- The root pass outputs one root per particle, with respect to the parent
function it was given. -/
theorem rootPass_spec {uf : UF} {n : ℕ} (hn : uf.n = n) (hInv : PInv uf.parent n) :
    (rootPass uf n).1.length = n ∧
    ∀ i, i < n → RootedAt uf.parent i ((rootPass uf n).1.getD i 0) := by
  obtain ⟨rs, h1, h2, h3, -, -, -⟩ :=
    rootStep_fold uf n (List.range n) [] uf hn hInv (fun _ _ => Iff.rfl)
      (fun i hi => List.mem_range.mp hi)
  have hfst : (rootPass uf n).1 = rs := by
    unfold rootPass
    rw [h1, List.nil_append]
  constructor
  · rw [hfst, h2, List.length_range]
  · intro i hi
    have hi' : i < (List.range n).length := by rwa [List.length_range]
    have h := h3 i hi'
    rwa [List.get_range, ← hfst] at h

/-- `indexOf` is minimal among positions holding the value. -/
theorem indexOf_min (a : ℕ) : ∀ (l : List ℕ) (k : ℕ) (hk : k < l.length),
    l.get ⟨k, hk⟩ = a → l.indexOf a ≤ k := by
  intro l
  induction l with
  | nil => intro k hk _; exact absurd hk (by simp)
  | cons b l ih =>
    intro k hk hget
    by_cases hba : b = a
    · subst hba
      rw [List.indexOf_cons_self]
      exact Nat.zero_le k
    · cases k with
      | zero => exact absurd hget hba
      | succ k =>
        rw [List.indexOf_cons_ne l hba]
        exact Nat.succ_le_succ (ih k (Nat.lt_of_succ_lt_succ hk) hget)

/-- No occurrence of `a` strictly precedes its first occurrence. -/
theorem not_mem_take_indexOf (l : List ℕ) (a : ℕ) : a ∉ l.take (l.indexOf a) := by
  intro hmem
  obtain ⟨k, hget⟩ := List.mem_iff_get.mp hmem
  have hkl : (k : ℕ) < l.length :=
    Nat.lt_of_lt_of_le k.2 (by rw [List.length_take]; exact min_le_right _ _)
  have hkidx : (k : ℕ) < l.indexOf a :=
    Nat.lt_of_lt_of_le k.2 (by rw [List.length_take]; exact min_le_left _ _)
  have h1 : (l.take (l.indexOf a)).get k = l.get ⟨(k : ℕ), hkl⟩ := by
    rw [List.get_eq_getElem, List.get_eq_getElem]
    exact List.getElem_take l
  have hgl : l.get ⟨(k : ℕ), hkl⟩ = a := by
    rw [← h1]
    exact hget
  exact absurd (indexOf_min a l (k : ℕ) hkl hgl) (not_le.mpr hkidx)

/-- The id map built by the scan: a root seen in `seen` is assigned the
number of distinct roots occurring strictly before its first occurrence. -/
def assignOf (seen : List ℕ) (r : ℕ) : Option ℕ :=
  if r ∈ seen then some ((seen.take (seen.indexOf r)).toFinset.card) else none

theorem assignOf_append_mem {seen : List ℕ} {r0 : ℕ} (h : r0 ∈ seen) :
    assignOf (seen ++ [r0]) = assignOf seen := by
  funext r
  unfold assignOf
  by_cases hr : r ∈ seen
  · rw [if_pos (List.mem_append.mpr (Or.inl hr)), if_pos hr,
      List.indexOf_append_of_mem hr,
      List.take_append_of_le_length (le_of_lt (List.indexOf_lt_length.mpr hr))]
  · have hr2 : r ∉ seen ++ [r0] := by
      intro hmem
      rcases List.mem_append.mp hmem with h1 | h1
      · exact hr h1
      · rw [List.mem_singleton] at h1
        subst h1
        exact hr h
    rw [if_neg hr2, if_neg hr]

theorem assignOf_append_new {seen : List ℕ} {r0 : ℕ} (h : r0 ∉ seen) :
    assignOf (seen ++ [r0]) =
      Function.update (assignOf seen) r0 (some seen.toFinset.card) := by
  funext r
  by_cases hr : r = r0
  · subst hr
    rw [Function.update_same]
    unfold assignOf
    rw [if_pos (List.mem_append.mpr (Or.inr (List.mem_singleton.mpr rfl))),
      List.indexOf_append_of_not_mem h, List.indexOf_cons_self, Nat.add_zero,
      List.take_append_of_le_length (le_refl seen.length), List.take_length]
  · rw [Function.update_noteq hr]
    unfold assignOf
    by_cases hmem : r ∈ seen
    · rw [if_pos (List.mem_append.mpr (Or.inl hmem)), if_pos hmem,
        List.indexOf_append_of_mem hmem,
        List.take_append_of_le_length (le_of_lt (List.indexOf_lt_length.mpr hmem))]
    · have hr2 : r ∉ seen ++ [r0] := by
        intro hm
        rcases List.mem_append.mp hm with h1 | h1
        · exact hmem h1
        · rw [List.mem_singleton] at h1
          exact hr h1
      rw [if_neg hr2, if_neg hmem]

theorem toFinset_card_append_mem {seen : List ℕ} {r0 : ℕ} (h : r0 ∈ seen) :
    (seen ++ [r0]).toFinset.card = seen.toFinset.card := by
  rw [List.toFinset_append, show ([r0] : List ℕ).toFinset = {r0} by simp,
    Finset.union_comm, ← Finset.insert_eq,
    Finset.insert_eq_self.mpr (List.mem_toFinset.mpr h)]

theorem toFinset_card_append_new {seen : List ℕ} {r0 : ℕ} (h : r0 ∉ seen) :
    (seen ++ [r0]).toFinset.card = seen.toFinset.card + 1 := by
  rw [List.toFinset_append, show ([r0] : List ℕ).toFinset = {r0} by simp,
    Finset.union_comm, ← Finset.insert_eq,
    Finset.card_insert_of_not_mem (fun hc => h (List.mem_toFinset.mp hc))]

theorem buildMap_cons_some {rs : List ℕ} {m : ℕ → Option ℕ} {c r v : ℕ}
    (h : m r = some v) :
    buildMap (r :: rs) m c = buildMap rs m c := by
  show (match m r with
    | some _ => buildMap rs m c
    | none => buildMap rs (Function.update m r (some c)) (c + 1)) = buildMap rs m c
  rw [h]

theorem buildMap_cons_none {rs : List ℕ} {m : ℕ → Option ℕ} {c r : ℕ}
    (h : m r = none) :
    buildMap (r :: rs) m c = buildMap rs (Function.update m r (some c)) (c + 1) := by
  show (match m r with
    | some _ => buildMap rs m c
    | none => buildMap rs (Function.update m r (some c)) (c + 1)) =
    buildMap rs (Function.update m r (some c)) (c + 1)
  rw [h]

/-- The id scan in closed form: starting from the state summarizing `seen`,
it ends in the state summarizing `seen ++ rs`. -/
theorem buildMap_assignOf : ∀ (rs seen : List ℕ),
    buildMap rs (assignOf seen) seen.toFinset.card =
      (assignOf (seen ++ rs), (seen ++ rs).toFinset.card) := by
  intro rs
  induction rs with
  | nil =>
    intro seen
    rw [List.append_nil]
    rfl
  | cons r rs ih =>
    intro seen
    by_cases hmem : r ∈ seen
    · have h1 : assignOf seen r =
          some ((seen.take (seen.indexOf r)).toFinset.card) := by
        unfold assignOf
        rw [if_pos hmem]
      rw [buildMap_cons_some h1]
      have h2 := ih (seen ++ [r])
      rw [assignOf_append_mem hmem, toFinset_card_append_mem hmem] at h2
      rw [h2, List.append_assoc, List.singleton_append]
    · have h1 : assignOf seen r = none := by
        unfold assignOf
        rw [if_neg hmem]
      rw [buildMap_cons_none h1]
      have h2 := ih (seen ++ [r])
      rw [assignOf_append_new hmem, toFinset_card_append_new hmem] at h2
      rw [h2, List.append_assoc, List.singleton_append]

/-- The map pass of `find_clusters_from_vec2array` in closed form. -/
theorem buildMap_eq (rs : List ℕ) :
    buildMap rs (fun _ => none) 0 = (assignOf rs, rs.toFinset.card) := by
  have h0 : (fun _ => none : ℕ → Option ℕ) = assignOf [] := by
    funext r
    unfold assignOf
    rw [if_neg (List.not_mem_nil r)]
  have h1 : (0 : ℕ) = ([] : List ℕ).toFinset.card := rfl
  rw [h0, h1, buildMap_assignOf, List.nil_append]

/-- First-occurrence indices determine occurring elements. -/
theorem indexOf_inj_of_mem {l : List ℕ} {a b : ℕ} (ha : a ∈ l) (hb : b ∈ l)
    (h : l.indexOf a = l.indexOf b) : a = b := by
  have h1 := List.indexOf_get (List.indexOf_lt_length.mpr ha)
  have h2 := List.indexOf_get (List.indexOf_lt_length.mpr hb)
  rw [← h1, ← h2]
  congr 1
  exact Fin.ext h

/-- Prefixes before an element-first-occurrence cut see strictly fewer
distinct values than any longer prefix containing the element. -/
theorem take_toFinset_card_lt_of (l : List ℕ) (r : ℕ) (hr : r ∈ l) (n : ℕ)
    (hn : l.indexOf r < n) :
    (l.take (l.indexOf r)).toFinset.card < (l.take n).toFinset.card := by
  have hidx : l.indexOf r < l.length := List.indexOf_lt_length.mpr hr
  have hsub : (l.take (l.indexOf r)).toFinset ⊆ (l.take n).toFinset := by
    intro x hx
    rw [List.mem_toFinset] at hx ⊢
    have heq : l.take (l.indexOf r) = (l.take n).take (l.indexOf r) := by
      rw [List.take_take, min_eq_left hn.le]
    rw [heq] at hx
    exact List.take_subset _ _ hx
  have hmem : r ∈ (l.take n).toFinset := by
    rw [List.mem_toFinset]
    have hb : l.indexOf r < (l.take n).length := by
      rw [List.length_take]
      exact lt_min hn hidx
    have hg : (l.take n).get ⟨l.indexOf r, hb⟩ = r := by
      rw [List.get_eq_getElem, List.getElem_take l]
      exact List.getElem_indexOf hidx
    rw [← hg]
    exact List.get_mem _ _ _
  have hnot : r ∉ (l.take (l.indexOf r)).toFinset := by
    rw [List.mem_toFinset]
    exact not_mem_take_indexOf l r
  exact Finset.card_lt_card ((Finset.ssubset_iff_of_subset hsub).mpr ⟨r, hmem, hnot⟩)

/-- Assigned ids are below the number of distinct roots. -/
theorem assignOf_lt {l : List ℕ} {r v : ℕ} (h : assignOf l r = some v) :
    v < l.toFinset.card := by
  unfold assignOf at h
  by_cases hr : r ∈ l
  · rw [if_pos hr] at h
    injection h with h2
    subst h2
    have hlt := take_toFinset_card_lt_of l r hr l.length (List.indexOf_lt_length.mpr hr)
    rwa [List.take_length] at hlt
  · rw [if_neg hr] at h
    exact Option.noConfusion h

/-- Only occurring roots carry an id. -/
theorem assignOf_mem {l : List ℕ} {r v : ℕ} (h : assignOf l r = some v) : r ∈ l := by
  by_contra hc
  unfold assignOf at h
  rw [if_neg hc] at h
  exact Option.noConfusion h

/-- Distinct roots get distinct ids. -/
theorem assignOf_inj {l : List ℕ} {r r' v : ℕ} (h : assignOf l r = some v)
    (h' : assignOf l r' = some v) : r = r' := by
  have hrm : r ∈ l := assignOf_mem h
  have hrm' : r' ∈ l := assignOf_mem h'
  unfold assignOf at h h'
  rw [if_pos hrm] at h
  rw [if_pos hrm'] at h'
  injection h with h1
  injection h' with h2
  rcases lt_trichotomy (l.indexOf r) (l.indexOf r') with hlt | heq | hgt
  · have := take_toFinset_card_lt_of l r hrm (l.indexOf r') hlt
    omega
  · exact indexOf_inj_of_mem hrm hrm' heq
  · have := take_toFinset_card_lt_of l r' hrm' (l.indexOf r) hgt
    omega

/-- Every id below the distinct-root count is assigned to some root. -/
theorem assignOf_surj : ∀ (l : List ℕ) (c : ℕ), c < l.toFinset.card →
    ∃ r ∈ l, assignOf l r = some c := by
  intro l
  induction l using List.reverseRecOn with
  | nil =>
    intro c hc
    exact absurd hc (by simp)
  | append_singleton l r0 ih =>
    intro c hc
    by_cases hmem : r0 ∈ l
    · rw [toFinset_card_append_mem hmem] at hc
      obtain ⟨r, hr, hv⟩ := ih c hc
      refine ⟨r, List.mem_append.mpr (Or.inl hr), ?_⟩
      rw [assignOf_append_mem hmem]
      exact hv
    · rw [toFinset_card_append_new hmem] at hc
      rcases Nat.lt_succ_iff_lt_or_eq.mp hc with h | h
      · obtain ⟨r, hr, hv⟩ := ih c h
        refine ⟨r, List.mem_append.mpr (Or.inl hr), ?_⟩
        rw [assignOf_append_new hmem,
          Function.update_noteq (by intro he; rw [he] at hr; exact hmem hr)]
        exact hv
      · refine ⟨r0, List.mem_append.mpr (Or.inr (List.mem_singleton.mpr rfl)), ?_⟩
        rw [assignOf_append_new hmem, Function.update_same, h]

/-- Smaller ids were first seen earlier in the root scan. -/
theorem assignOf_indexOf_lt {l : List ℕ} {r r' c d : ℕ} (h : assignOf l r = some c)
    (h' : assignOf l r' = some d) (hcd : c < d) : l.indexOf r < l.indexOf r' := by
  have hrm : r ∈ l := assignOf_mem h
  have hrm' : r' ∈ l := assignOf_mem h'
  unfold assignOf at h h'
  rw [if_pos hrm] at h
  rw [if_pos hrm'] at h'
  injection h with h1
  injection h' with h2
  rcases lt_trichotomy (l.indexOf r) (l.indexOf r') with hlt | heq | hgt
  · exact hlt
  · exfalso
    have hrr : r = r' := indexOf_inj_of_mem hrm hrm' heq
    subst hrr
    omega
  · exfalso
    have := take_toFinset_card_lt_of l r' hrm' (l.indexOf r) hgt
    omega

/-- Two lists that agree positionwise on where `a` and `b` sit have the same
first-occurrence index for them. -/
theorem indexOf_eq_indexOf {u w : List ℕ} {a b : ℕ} (hlen : u.length = w.length)
    (hmem : a ∈ u)
    (hpt : ∀ k (hk : k < u.length), u.get ⟨k, hk⟩ = a ↔ w.get ⟨k, hlen ▸ hk⟩ = b) :
    u.indexOf a = w.indexOf b := by
  have hia : u.indexOf a < u.length := List.indexOf_lt_length.mpr hmem
  have hwa : w.get ⟨u.indexOf a, hlen ▸ hia⟩ = b :=
    (hpt _ hia).mp (by rw [List.get_eq_getElem]; exact List.getElem_indexOf hia)
  have hbmem : b ∈ w := by
    rw [← hwa]
    exact List.get_mem _ _ _
  have hib : w.indexOf b ≤ u.indexOf a := indexOf_min b w _ (hlen ▸ hia) hwa
  have hib2 : w.indexOf b < w.length := List.indexOf_lt_length.mpr hbmem
  have hib3 : w.indexOf b < u.length := by
    rw [hlen]
    exact hib2
  have hub : u.get ⟨w.indexOf b, hib3⟩ = a := by
    refine (hpt _ hib3).mpr ?_
    rw [List.get_eq_getElem]
    exact List.getElem_indexOf hib2
  have hiu : u.indexOf a ≤ w.indexOf b := indexOf_min a u _ hib3 hub
  omega

/-- Spec of the id-assignment pass over an arbitrary root list `rs` whose
entry `i` is a root of particle `i` for the parent function `p`: the mapped
id list has one entry per particle, equal ids characterize a shared root,
ids are dense below the distinct-root count, and ids increase with the first
occurrence of the corresponding root. -/
theorem idsOf_spec (rs : List ℕ) (p : ℕ → ℕ) (N : ℕ) (hlen : rs.length = N)
    (hroots : ∀ i, i < N → RootedAt p i (rs.getD i 0)) :
    (rs.map (fun r => (assignOf rs r).getD 0)).length = N ∧
    (∀ i j, i < N → j < N →
      ((rs.map (fun r => (assignOf rs r).getD 0)).getD i 0 =
        (rs.map (fun r => (assignOf rs r).getD 0)).getD j 0 ↔ SameRoot p i j)) ∧
    (∀ i, i < N →
      (rs.map (fun r => (assignOf rs r).getD 0)).getD i 0 < rs.toFinset.card) ∧
    (∀ c, c < rs.toFinset.card →
      ∃ i, i < N ∧ (rs.map (fun r => (assignOf rs r).getD 0)).getD i 0 = c) ∧
    (∀ c d, c < d → d < rs.toFinset.card →
      (rs.map (fun r => (assignOf rs r).getD 0)).indexOf c <
      (rs.map (fun r => (assignOf rs r).getD 0)).indexOf d) := by
  have hassign : ∀ r, r ∈ rs → ∃ v, assignOf rs r = some v := by
    intro r hr
    exact ⟨(rs.take (rs.indexOf r)).toFinset.card, by unfold assignOf; rw [if_pos hr]⟩
  have hval : ∀ i, i < N → ∀ v, assignOf rs (rs.getD i 0) = some v →
      (rs.map (fun r => (assignOf rs r).getD 0)).getD i 0 = v := by
    intro i hi v hv
    have hi2 : i < rs.length := by
      rw [hlen]
      exact hi
    rw [getD_map_getD (fun r => (assignOf rs r).getD 0) rs hi2 0 0, hv]
    rfl
  refine ⟨by rw [List.length_map, hlen], ?_, ?_, ?_, ?_⟩
  · intro i j hi hj
    obtain ⟨vi, hvi⟩ := hassign _ (getD_mem 0 (by rw [hlen]; exact hi))
    obtain ⟨vj, hvj⟩ := hassign _ (getD_mem 0 (by rw [hlen]; exact hj))
    rw [hval i hi vi hvi, hval j hj vj hvj]
    constructor
    · intro hveq
      rw [← hveq] at hvj
      have hreq : rs.getD i 0 = rs.getD j 0 := assignOf_inj hvi hvj
      refine ⟨rs.getD i 0, hroots i hi, ?_⟩
      rw [hreq]
      exact hroots j hj
    · rintro ⟨r, h1, h2⟩
      have e1 : rs.getD i 0 = r := rootedAt_unique (hroots i hi) h1
      have e2 : rs.getD j 0 = r := rootedAt_unique (hroots j hj) h2
      rw [e1, ← e2] at hvi
      have h3 := hvi.symm.trans hvj
      injection h3
  · intro i hi
    obtain ⟨vi, hvi⟩ := hassign _ (getD_mem 0 (by rw [hlen]; exact hi))
    rw [hval i hi vi hvi]
    exact assignOf_lt hvi
  · intro c hc
    obtain ⟨r, hr, hv⟩ := assignOf_surj rs c hc
    obtain ⟨k, hk⟩ := List.mem_iff_get.mp hr
    have hkN : (k : ℕ) < N := by
      rw [← hlen]
      exact k.2
    refine ⟨k, hkN, hval k hkN c ?_⟩
    have hgd : rs.getD (k : ℕ) 0 = r := by
      rw [List.getD_eq_getElem?_getD, List.getElem?_eq_getElem k.2, ← hk,
        List.get_eq_getElem]
      rfl
    rw [hgd]
    exact hv
  · have hidxeq : ∀ (c r : ℕ), assignOf rs r = some c →
        (rs.map (fun r => (assignOf rs r).getD 0)).indexOf c = rs.indexOf r := by
      intro c r hv
      have hrmem : r ∈ rs := assignOf_mem hv
      have hlen2 : (rs.map (fun r => (assignOf rs r).getD 0)).length = rs.length := by
        rw [List.length_map]
      obtain ⟨k, hk⟩ := List.mem_iff_get.mp hrmem
      have hcmem : c ∈ rs.map (fun r => (assignOf rs r).getD 0) := by
        have h1 : (assignOf rs (rs.get k)).getD 0 = c := by
          rw [hk, hv]
          rfl
        rw [← h1]
        exact List.mem_map_of_mem _ (List.get_mem _ _ _)
      refine indexOf_eq_indexOf hlen2 hcmem ?_
      intro k2 hk2
      have hk3 : k2 < rs.length := by
        rw [← hlen2]
        exact hk2
      have hgm : (rs.map (fun r => (assignOf rs r).getD 0)).get ⟨k2, hk2⟩ =
          (assignOf rs (rs.get ⟨k2, hk3⟩)).getD 0 := by
        rw [List.get_eq_getElem, List.get_eq_getElem, List.getElem_map]
      rw [hgm]
      obtain ⟨v2, hv2⟩ := hassign _ (List.get_mem _ _ _)
      rw [hv2]
      constructor
      · intro he
        have hvc2 : v2 = c := he
        rw [hvc2] at hv2
        exact assignOf_inj hv2 hv
      · intro he
        have he2 : rs.get ⟨k2, hk3⟩ = r := he
        rw [he2] at hv2
        have h3 := hv2.symm.trans hv
        injection h3
    intro c d hcd hdlt
    obtain ⟨rc, hrc, hvc⟩ := assignOf_surj rs c (lt_trans hcd hdlt)
    obtain ⟨rd, hrd, hvd⟩ := assignOf_surj rs d hdlt
    rw [hidxeq c rc hvc, hidxeq d rd hvd]
    exact assignOf_indexOf_lt hvc hvd hcd

/-- C1: for a nonempty point set, positive bonding cutoff and valid
periodicity settings, `find_clusters_from_vec2array` returns one id per
particle; two particles get the same id iff they are joined by a chain of
bonds, each a pair of distinct particles within (minimum-image, when
periodic) distance `lbond`; ids are dense in `[0, nclusters)`; and ids are
assigned in order of first occurrence of the union-find roots scanned in
particle order (smaller ids first occur earlier in the id list). -/
theorem C1_cluster_partition (ps : List Vec2) (lbond : ℚ) (use_pbc : Bool)
    (bx by_ : ℚ) (hps : ps ≠ []) ( _hl : 0 < lbond)
    (hbox : use_pbc = true → 0 < bx ∧ 0 < by_) :
    ∃ ids ncl,
      find_clusters_from_vec2array (some ps) lbond use_pbc bx by_ =
        ⟨false, some ids, some ncl⟩ ∧
      ids.length = ps.length ∧
      (∀ i j, i < ps.length → j < ps.length →
        (ids.getD i 0 = ids.getD j 0 ↔
          Relation.EqvGen (bondRel ps lbond use_pbc bx by_) i j)) ∧
      (∀ i, i < ps.length → ids.getD i 0 < ncl) ∧
      (∀ c, c < ncl → ∃ i, i < ps.length ∧ ids.getD i 0 = c) ∧
      (∀ c d, c < d → d < ncl → ids.indexOf c < ids.indexOf d) := by
  obtain ⟨hn, hInv, hSR⟩ := clusterUF_spec ps lbond use_pbc bx by_
  obtain ⟨hlen, hroots⟩ := rootPass_spec hn hInv
  obtain ⟨hL, hEq2, hBd, hDen, hOrd⟩ := idsOf_spec _ _ _ hlen hroots
  refine ⟨_, _, ?_, hL,
    fun i j hi hj => (hEq2 i j hi hj).trans (hSR i j), hBd, hDen, hOrd⟩
  have hcond : ¬(use_pbc = true ∧ (bx ≤ 0 ∨ by_ ≤ 0)) := by
    rintro ⟨h1, h2⟩
    obtain ⟨hb1, hb2⟩ := hbox h1
    rcases h2 with h | h <;> linarith
  simp only [find_clusters_from_vec2array]
  rw [if_neg (fun h => hps (List.length_eq_zero.mp h)), if_neg hcond, buildMap_eq]

/-- Witness for C1 at a concrete three-point input. -/
theorem C1_witness :
    ([⟨0, 0⟩, ⟨1, 0⟩, ⟨5, 0⟩] : List Vec2) ≠ [] ∧ (0 : ℚ) < 3 / 2 ∧
    ∃ ids ncl,
      find_clusters_from_vec2array (some [⟨0, 0⟩, ⟨1, 0⟩, ⟨5, 0⟩]) (3 / 2) false 1 1 =
        ⟨false, some ids, some ncl⟩ ∧
      ids.length = 3 := by
  obtain ⟨ids, ncl, heq, hlen, -, -, -, -⟩ :=
    C1_cluster_partition [⟨0, 0⟩, ⟨1, 0⟩, ⟨5, 0⟩] (3 / 2) false 1 1
      (by simp) (by norm_num) (by simp)
  refine ⟨by simp, by norm_num, ids, ncl, heq, ?_⟩
  rw [hlen]
  rfl

/-- `binOf` agrees with the real-valued bin index `⌊√r2 / dr⌋` that the C
code computes via `floor(sqrt(r2)/dr)`. -/
theorem binOf_eq_floor_sqrt (r2 dr : ℚ) (h2 : 0 ≤ r2) (hdr : 0 < dr) :
    (binOf r2 dr : ℤ) = ⌊Real.sqrt (r2 : ℝ) / (dr : ℝ)⌋ := by
  have hq : (0 : ℚ) ≤ r2 / dr ^ 2 := div_nonneg h2 (by positivity)
  have hfl : (0 : ℤ) ≤ ⌊r2 / dr ^ 2⌋ := Int.floor_nonneg.mpr hq
  obtain ⟨m, hm⟩ : ∃ m : ℕ, (⌊r2 / dr ^ 2⌋).toNat = m := ⟨_, rfl⟩
  have htn : ((m : ℤ)) = ⌊r2 / dr ^ 2⌋ := by
    rw [← hm]
    exact Int.toNat_of_nonneg hfl
  have hbin : binOf r2 dr = Nat.sqrt m := by
    unfold binOf
    rw [hm]
  rw [hbin]
  have hlo : ((Nat.sqrt m : ℤ)) ^ 2 ≤ ⌊r2 / dr ^ 2⌋ := by
    rw [← htn]
    exact_mod_cast Nat.sqrt_le' m
  have hhi : ⌊r2 / dr ^ 2⌋ < ((Nat.sqrt m : ℤ) + 1) ^ 2 := by
    rw [← htn]
    exact_mod_cast Nat.lt_succ_sqrt' m
  have hloq : ((Nat.sqrt m : ℚ)) ^ 2 ≤ r2 / dr ^ 2 := by
    have h := Int.le_floor.mp hlo
    exact_mod_cast h
  have hhiq : r2 / dr ^ 2 < ((Nat.sqrt m : ℚ) + 1) ^ 2 := by
    have h := Int.floor_lt.mp hhi
    exact_mod_cast h
  have hdr2 : (0 : ℚ) < dr ^ 2 := by positivity
  have hloq2 : ((Nat.sqrt m : ℚ) * dr) ^ 2 ≤ r2 := by
    have h := (le_div_iff hdr2).mp hloq
    nlinarith [h]
  have hhiq2 : r2 < (((Nat.sqrt m : ℚ) + 1) * dr) ^ 2 := by
    have h := (div_lt_iff hdr2).mp hhiq
    nlinarith [h]
  have hdrR : (0 : ℝ) < (dr : ℝ) := by exact_mod_cast hdr
  have h2R : (0 : ℝ) ≤ (r2 : ℝ) := by exact_mod_cast h2
  have hloR : ((Nat.sqrt m : ℝ)) * (dr : ℝ) ≤ Real.sqrt (r2 : ℝ) := by
    rw [Real.le_sqrt (by positivity) h2R]
    exact_mod_cast hloq2
  have hhiR : Real.sqrt (r2 : ℝ) < ((Nat.sqrt m : ℝ) + 1) * (dr : ℝ) := by
    rw [Real.sqrt_lt' (by positivity)]
    exact_mod_cast hhiq2
  symm
  rw [Int.floor_eq_iff]
  constructor
  · push_cast
    rw [le_div_iff hdrR]
    exact hloR
  · push_cast
    rw [div_lt_iff hdrR]
    exact hhiR

end Hexatic
